import Mathlib

/-!
Verification of the arangosearch view execution block
(`src/arangod/IResearch/IResearchViewBlock.cpp`): a shallow embedding of the
pull protocol (`IResearchViewBlockBase::getSome` / `skipSome` / `reset`), the
two scan strategies (`IResearchViewBlock::next`/`skip` and
`IResearchViewUnorderedBlock::next`/`skip` with `readPKs`), and the row
context adapter (`ViewExpressionContext::getVariableValue`), together with
proofs of the behavioural properties stated in the design document.

Modelling conventions:
* an index match (one hit of the masked match iterator produced by the
  compiled filter) is a `Doc`, recording whether its primary-key column
  lookup and self-decoding succeed (`pkOk`), whether its storage join
  (`readDocument`) succeeds (`joinOk`), and a payload;
* a `Segment` is the list of matches the compiled filter yields on one index
  segment; a `Row` is one upstream input row together with the outcome of
  compiling the filter/scorers against it (`filterOk`, `scorersOk`) and the
  matches its compiled filter produces per segment; a `Block` is one upstream
  `AqlItemBlock` (a list of rows);
* the read cursor `(_readerOffset, _itr)` is represented by the suffix of
  segments not yet advanced past (`segsLeft`) together with the live
  iterator state (`itr`; `none` means the iterator must be (re)created);
  `++_readerOffset` becomes dropping the head of `segsLeft`;
* the upstream dependency is a deterministic list of responses (`UpResp`),
  one consumed per `ExecutionBlock::getBlock` call;
* C++ exceptions are `Except Err`; the C++ `while` loops are fueled, with
  `Err.outOfFuel` standing for a call that did not finish within the given
  fuel (all statements below are about calls that do finish).
-/

/-- Execution states of the AQL pull protocol. -/
inductive ExecState where
  | waiting
  | hasMore
  | done
deriving DecidableEq, Repr

/-- Errors thrown by the block: `TRI_ERROR_INTERNAL`, `TRI_ERROR_BAD_PARAMETER`,
plus the artefact of fueling the loops. -/
inductive Err where
  | internal
  | badParameter
  | outOfFuel
deriving DecidableEq, Repr

/-- One match of the masked match iterator: `pkOk` is whether
`values(it.value(), key) && docPk.read(key)` succeeds for it, `joinOk` whether
the storage-engine join (collection lookup + `readDocumentWithCallback`)
succeeds, `payload` the joined document. -/
structure Doc where
  pkOk : Bool
  joinOk : Bool
  payload : Nat
deriving DecidableEq, Repr

/-- Matches the compiled filter yields on one index segment, in iterator order. -/
abbrev Segment := List Doc

/-- One upstream input row: whether `FilterFactory::filter` succeeds on it
(`filterOk`), whether every `OrderFactory::scorer` succeeds on it
(`scorersOk`), and the per-segment matches of the filter compiled against it. -/
structure Row where
  filterOk : Bool
  scorersOk : Bool
  segs : List Segment
deriving DecidableEq, Repr

/-- One upstream `AqlItemBlock`. -/
abbrev Block := List Row

/-- Success of `IResearchViewBlockBase::readDocument(size_t, doc_id, cb)`
(IResearchViewBlock.cpp:250-287): primary-key lookup/decoding plus storage
join must all succeed. -/
def docReadOk (d : Doc) : Bool := d.pkOk && d.joinOk

/-! ### Scored strategy: `IResearchViewBlock::next` / `skip` -/

/-- Inner `while (limit && _itr->next())` loop of `IResearchViewBlock::next`
(IResearchViewBlock.cpp:498-531): pop matches from the current iterator while
budget remains; a match whose `readDocument` fails is `continue`d past without
consuming budget or producing output; an accepted match is written (payload
and score registers) and consumes one unit of budget. Returns (remaining
iterator, remaining limit, produced rows). -/
def scoredInner : List Doc → Nat → List Doc × Nat × List Doc
  | ms, 0 => (ms, 0, [])
  | [], l+1 => ([], l+1, [])
  | d :: ms, l+1 =>
    if docReadOk d then
      match scoredInner ms l with
      | (ms2, l2, out) => (ms2, l2, d :: out)
    else scoredInner ms (l+1)

/-- Outer segment loop of `IResearchViewBlock::next`
(IResearchViewBlock.cpp:478-546). `segs` is the suffix of `_reader`'s segments
from `_readerOffset` on; `itr` is the live iterator of the head segment
(`none` = `resetIterator()` pending). Returns the new cursor (segment suffix,
iterator), the remaining limit, the produced rows and `next`'s return value. -/
def scoredNext : List Segment → Option (List Doc) → Nat →
    List Segment × Option (List Doc) × Nat × List Doc × Bool
  | [], itr, limit => ([], itr, limit, [], limit == 0)
  | seg :: rest, itr, limit =>
    match scoredInner (itr.getD seg) limit with
    | (ms, lrem, out) =>
      if lrem = 0 then (seg :: rest, some ms, 0, out, true)
      else
        match scoredNext rest none lrem with
        | (segs2, itr2, l2, out2, b) => (segs2, itr2, l2, out ++ out2, b)

/-- Inner counting loop of `IResearchViewBlock::skip` and
`IResearchViewUnorderedBlock::skip` (IResearchViewBlock.cpp:557-560,659-662):
`while (limit && _itr->next()) { ++skipped; --limit; }`. -/
def skipInner : List Doc → Nat → List Doc × Nat × Nat
  | ms, 0 => (ms, 0, 0)
  | [], l+1 => ([], l+1, 0)
  | _ :: ms, l+1 =>
    match skipInner ms l with
    | (ms2, l2, k) => (ms2, l2, k+1)

/-- The segment loop of `IResearchViewBlock::skip`
(IResearchViewBlock.cpp:548-571); `IResearchViewUnorderedBlock::skip`
(IResearchViewBlock.cpp:646-673) is the character-identical loop, so both
strategies share this model. Returns (new segment suffix, new iterator,
skipped count). -/
def blockSkip : List Segment → Option (List Doc) → Nat →
    List Segment × Option (List Doc) × Nat
  | [], itr, _ => ([], itr, 0)
  | seg :: rest, itr, limit =>
    match skipInner (itr.getD seg) limit with
    | (ms, lrem, k) =>
      if lrem = 0 then (seg :: rest, some ms, k)
      else
        match blockSkip rest none lrem with
        | (segs2, itr2, k2) => (segs2, itr2, k + k2)

/-! ### Unordered strategy: `readPKs`, `IResearchViewUnorderedBlock::next` -/

/-- Model of `readPKs` (IResearchViewBlock.cpp:67-86): pull matches from the
iterator while the `limit`-sized key buffer has free slots; a match whose
primary-key lookup and decoding both succeed occupies one slot, a failing one
is consumed from the iterator without occupying a slot. Returns (accepted
keys, remaining iterator). -/
def readPKs : List Doc → Nat → List Doc × List Doc
  | ms, 0 => ([], ms)
  | [], _+1 => ([], [])
  | d :: ms, l+1 =>
    if d.pkOk then
      match readPKs ms l with
      | (ks, rest) => (d :: ks, rest)
    else readPKs ms (l+1)

/-- Storage-join loop over the buffered keys in
`IResearchViewUnorderedBlock::next` (IResearchViewBlock.cpp:610-629): a key
whose `readDocument` fails is `continue`d past; `--limit` happens only for
successful joins (successes never exceed `limit`, so the `Nat` subtraction
is exact). Returns (remaining limit, produced rows). -/
def joinKeys : List Doc → Nat → Nat × List Doc
  | [], l => (l, [])
  | d :: ks, l =>
    if d.joinOk then
      match joinKeys ks (l-1) with
      | (l2, out) => (l2, d :: out)
    else joinKeys ks l

/-- Outer segment loop of `IResearchViewUnorderedBlock::next`
(IResearchViewBlock.cpp:585-644): collect up to `limit` primary keys via
`readPKs`, join them, and advance to the next segment whenever the remaining
`limit` is nonzero. Same result shape as `scoredNext`. -/
def unorderedNext : List Segment → Option (List Doc) → Nat →
    List Segment × Option (List Doc) × Nat × List Doc × Bool
  | [], itr, limit => ([], itr, limit, [], limit == 0)
  | seg :: rest, itr, limit =>
    match readPKs (itr.getD seg) limit with
    | (keys, ms) =>
      match joinKeys keys limit with
      | (lrem, out) =>
        if lrem = 0 then (seg :: rest, some ms, 0, out, true)
        else
          match unorderedNext rest none lrem with
          | (segs2, itr2, l2, out2, b) => (segs2, itr2, l2, out ++ out2, b)

/-! ### The pull protocol controller: `IResearchViewBlockBase` -/

/-- One response of the upstream dependency to a `getBlock` request:
`WAITING`, a block together with the upstream state (`last = true` models
`DONE`, otherwise `HASMORE`), or no block with state `DONE`. -/
inductive UpResp where
  | waiting
  | yield (last : Bool) (b : Block)
  | exhausted
deriving DecidableEq, Repr

/-- The declared volatility pair `IResearchViewNode::volatility()`
(first = filter, second = sort), read back by `reset` after compiling. -/
structure PlanNode where
  volFilterDecl : Bool
  volSortDecl : Bool
deriving DecidableEq, Repr

/-- The mutable state of an `IResearchViewBlockBase`: the upstream response
stream still to come, `_buffer`, `_pos`, `_done`, `_hasMore`, `_inflight`,
`_upstreamState`, the read cursor (`segsLeft`,`itr` for
`_readerOffset`,`_itr`), the volatility flags and the engine's
`scannedIndex` statistic. -/
structure BState where
  upstream : List UpResp
  buffer : List Block
  pos : Nat
  done : Bool
  hasMore : Bool
  inflight : Nat
  upstreamState : ExecState
  segsLeft : List Segment
  itr : Option (List Doc)
  volSort : Bool
  volFilter : Bool
  scanned : Nat
deriving DecidableEq, Repr

/-- The input row `(_buffer.front(), _pos)` currently bound to the expression
context. -/
def currentRow (s : BState) : Option Row :=
  match s.buffer with
  | [] => none
  | b :: _ => b[s.pos]?

/-- Model of `IResearchViewBlockBase::reset` (IResearchViewBlock.cpp:170-221):
with a volatile filter, rebuild the filter from the current row (failure
throws `TRI_ERROR_BAD_PARAMETER`), additionally rebuild every scorer when the
sort is volatile (same failure mode), then refresh both volatility flags from
the plan's declared volatility (`_volatileSort = volatility.second;
_volatileFilter = _volatileSort || volatility.first`). With a non-volatile
filter the compiled predicate is reused unchanged. The trailing read-cursor
reset (`_readerOffset = 0; _itr.reset()`) is the derived classes' `reset`
override living in the header `IResearchViewBlock.h`, which is not part of
this translation unit; it is modelled from the spec: the read cursor is
"recreated whenever the row context changes". Calling `reset` with an empty
buffer violates its `TRI_ASSERT(!_buffer.empty())`, modelled as an internal
error. -/
def reset (nd : PlanNode) (s : BState) : Except Err BState :=
  match currentRow s with
  | none => .error .internal
  | some r =>
    if s.volFilter then
      if !r.filterOk then .error .badParameter
      else if s.volSort && !r.scorersOk then .error .badParameter
      else .ok { s with
        volSort := nd.volSortDecl,
        volFilter := nd.volSortDecl || nd.volFilterDecl,
        segsLeft := r.segs, itr := none }
    else .ok { s with segsLeft := r.segs, itr := none }

/-- Modelled from the spec: `ExecutionBlock::getBlock` is not part of this
translation unit. Per the spec's pull-protocol description, a fetch consumes
the next deterministic upstream response: `WAITING` is propagated with no
block, a yielded block is appended to `_buffer`, and an upstream with nothing
left yields `(DONE, no block)`. Returns ((state, got-a-block), new state). -/
def getBlockStep (s : BState) : (ExecState × Bool) × BState :=
  match s.upstream with
  | [] => ((.done, false), s)
  | .waiting :: rest => ((.waiting, false), { s with upstream := rest })
  | .yield last b :: rest =>
      ((if last then .done else .hasMore, true),
       { s with upstream := rest, buffer := s.buffer ++ [b] })
  | .exhausted :: rest => ((.done, false), { s with upstream := rest })

/-- Modelled from the spec: `ExecutionBlock::getHasMoreState` is not part of
this translation unit. Per the spec a finished call reports `HASMORE` or
`DONE` "per upstream state": the block is done when `_done` is set, or when
the local buffer is drained and upstream already reported `DONE` (which marks
`_done`). -/
def getHasMoreState (s : BState) : ExecState × BState :=
  if s.done then (.done, s)
  else if s.buffer.isEmpty ∧ s.upstreamState = .done then (.done, { s with done := true })
  else (.hasMore, s)

/-- The two scan strategies implement one `{next, skip}` contract
(`IResearchViewBlockBase::next/skip` are pure virtual); the controller is
parameterised over it. -/
structure Strategy where
  nextStep : List Segment → Option (List Doc) → Nat →
    List Segment × Option (List Doc) × Nat × List Doc × Bool
  skipStep : List Segment → Option (List Doc) → Nat →
    List Segment × Option (List Doc) × Nat

/-- The scored strategy (`IResearchViewBlock`). -/
def scoredStrategy : Strategy := ⟨scoredNext, blockSkip⟩

/-- The unordered strategy (`IResearchViewUnorderedBlock`). -/
def unorderedStrategy : Strategy := ⟨unorderedNext, blockSkip⟩

/-- Result of a `getSome` call: (state, output batch or `nullptr`) plus the
state after the call. -/
abbrev GetRes := (ExecState × Option (List Doc)) × BState

/-- Result of a `skipSome` call: (state, skipped count) plus the state after
the call. -/
abbrev SkipRes := (ExecState × Nat) × BState

/-- The `if (_buffer.empty())` head of the inner loop of `getSome`
(IResearchViewBlock.cpp:310-325): fetch a block when the buffer is empty,
returning `(WAITING, nullptr)` unchanged, marking `_done` and returning
`(DONE, nullptr)` when upstream yields nothing, and otherwise recording the
upstream state, rewinding `_pos` and `reset()`ing. `Sum.inl` is an early
return out of `getSome`, `Sum.inr` continues with the row in place. -/
def fetchIfEmpty (nd : PlanNode) (s : BState) : Except Err (GetRes ⊕ BState) :=
  if s.buffer.isEmpty then
    match getBlockStep s with
    | ((.waiting, _), s1) => .ok (.inl ((.waiting, none), s1))
    | ((st, got), s1) =>
      if got then
        match reset nd { s1 with upstreamState := st, pos := 0 } with
        | .error e => .error e
        | .ok s2 => .ok (.inr s2)
      else .ok (.inl ((.done, none), { s1 with upstreamState := st, done := true }))
  else .ok (.inr s)

/-- The inner `do { ... } while (needMore)` loop of `getSome`
(IResearchViewBlock.cpp:307-344): after the buffer-fill step, a row whose
scan is exhausted (`!_hasMore`) is advanced past — `++_pos` with a `reset()`,
or a buffer pop rewinding `_pos` — and the loop repeats until a row with live
scan state is in place (`Sum.inr`) or the fetch step returns early
(`Sum.inl`). Reading `_buffer.front()` of an empty buffer is undefined,
modelled as an internal error (unreachable after `fetchIfEmpty`). -/
def ensureRow (nd : PlanNode) : Nat → BState → Except Err (GetRes ⊕ BState)
  | 0, _ => .error .outOfFuel
  | fuel+1, s =>
    match fetchIfEmpty nd s with
    | .error e => .error e
    | .ok (.inl r) => .ok (.inl r)
    | .ok (.inr s1) =>
      if s1.hasMore then .ok (.inr s1)
      else
        match s1.buffer with
        | [] => .error .internal
        | cur :: restBuf =>
          if s1.pos + 1 ≥ cur.length then
            ensureRow nd fuel { s1 with hasMore := true, buffer := restBuf, pos := 0 }
          else
            match reset nd { s1 with hasMore := true, pos := s1.pos + 1 } with
            | .error e => .error e
            | .ok s2 => ensureRow nd fuel s2

/-- The outer `do { ... } while (ctx.pos == 0)` loop of `getSome`
(IResearchViewBlock.cpp:306-365) and its epilogue: run the strategy's `next`
on the cursor with budget `atMost`, record its return value in `_hasMore`,
loop while no rows were produced, and on success add the produced count to
the `scannedIndex` statistic, shrink the batch and return
`getHasMoreState()`. -/
def getSomeLoop (nd : PlanNode) (strat : Strategy) (atMost : Nat) :
    Nat → BState → Except Err GetRes
  | 0, _ => .error .outOfFuel
  | fuel+1, s =>
    match ensureRow nd (fuel+1) s with
    | .error e => .error e
    | .ok (.inl r) => .ok r
    | .ok (.inr s1) =>
      match strat.nextStep s1.segsLeft s1.itr atMost with
      | (segs2, itr2, _, out, hm) =>
        let s2 := { s1 with segsLeft := segs2, itr := itr2, hasMore := hm }
        if out.isEmpty then getSomeLoop nd strat atMost fuel s2
        else
          match getHasMoreState { s2 with scanned := s2.scanned + out.length } with
          | (st, s3) => .ok ((st, some out), s3)

/-- Model of `IResearchViewBlockBase::getSome` (IResearchViewBlock.cpp:289-382):
a block already `_done` returns `(DONE, nullptr)` untouched, otherwise the
fetch/advance/produce loop runs. -/
def getSomeF (nd : PlanNode) (strat : Strategy) (fuel atMost : Nat) (s : BState) :
    Except Err GetRes :=
  if s.done then .ok ((.done, none), s)
  else getSomeLoop nd strat atMost fuel s

/-- The epilogue of `skipSome` (IResearchViewBlock.cpp:436-445): add the
in-flight counter to the `scannedIndex` statistic, report it, reset it to
zero and return `getHasMoreState()`. -/
def finishSkip (s : BState) : SkipRes :=
  match getHasMoreState { s with scanned := s.scanned + s.inflight, inflight := 0 } with
  | (st, s1) => ((st, s.inflight), s1)

/-- The `if (_buffer.empty())` head of the skip loop
(IResearchViewBlock.cpp:396-415): fetch a block when the buffer is empty;
`WAITING` returns `(WAITING, 0)` keeping `_inflight`; an exhausted upstream
marks `_done`, adds the in-flight counter to the statistic, reports it and
zeroes it; a fetched block records the upstream state, rewinds `_pos` and
`reset()`s. `Sum.inl` returns out of `skipSome`, `Sum.inr` continues. -/
def skipFetch (nd : PlanNode) (s : BState) : Except Err (SkipRes ⊕ BState) :=
  if s.buffer.isEmpty then
    match getBlockStep s with
    | ((.waiting, _), s1) => .ok (.inl ((.waiting, 0), s1))
    | ((st, got), s1) =>
      if got then
        match reset nd { s1 with upstreamState := st, pos := 0 } with
        | .error e => .error e
        | .ok s2 => .ok (.inr s2)
      else
        let s2 := { s1 with upstreamState := st, done := true }
        .ok (.inl ((.done, s2.inflight),
          { s2 with inflight := 0, scanned := s2.scanned + s2.inflight }))
  else .ok (.inr s)

/-- The tail of one skip-loop iteration (IResearchViewBlock.cpp:417-433),
run with the buffer known nonempty: `_inflight += skip(atMost - _inflight)`,
and when the budget is still unmet advance the input row (buffer pop
rewinding `_pos`, or `++_pos` + `reset()`) and continue the loop (`rec`);
otherwise the loop exits into the reporting epilogue. Reading
`_buffer.front()` of an empty buffer is undefined, modelled as an internal
error (unreachable after `skipFetch`). -/
def skipBody (nd : PlanNode) (strat : Strategy) (atMost : Nat)
    (rec : BState → Except Err SkipRes) (s1 : BState) : Except Err SkipRes :=
  match s1.buffer with
  | [] => .error .internal
  | cur :: restBuf =>
    match strat.skipStep s1.segsLeft s1.itr (atMost - s1.inflight) with
    | (segs2, itr2, k) =>
      let s2 := { s1 with segsLeft := segs2, itr := itr2, inflight := s1.inflight + k }
      if s2.inflight < atMost then
        if s2.pos + 1 ≥ cur.length then
          rec { s2 with buffer := restBuf, pos := 0 }
        else
          match reset nd { s2 with pos := s2.pos + 1 } with
          | .error e => .error e
          | .ok s3 => rec s3
      else .ok (finishSkip s2)

/-- The `while (_inflight < atMost)` loop of `skipSome`
(IResearchViewBlock.cpp:395-434): fetch a block when the buffer is empty
(`skipFetch`, possibly returning out of the call), then run one `skipBody`
iteration; when the loop condition fails the epilogue reports. -/
def skipSomeLoop (nd : PlanNode) (strat : Strategy) (atMost : Nat) :
    Nat → BState → Except Err SkipRes
  | 0, _ => .error .outOfFuel
  | fuel+1, s =>
    if s.inflight < atMost then
      match skipFetch nd s with
      | .error e => .error e
      | .ok (.inl r) => .ok r
      | .ok (.inr s1) => skipBody nd strat atMost (skipSomeLoop nd strat atMost fuel) s1
    else .ok (finishSkip s)

/-- Model of `IResearchViewBlockBase::skipSome` (IResearchViewBlock.cpp:384-446):
a block already `_done` reports the in-flight counter with `DONE`, adds it to
the statistic and zeroes it; otherwise the skip loop runs. -/
def skipSomeF (nd : PlanNode) (strat : Strategy) (fuel atMost : Nat) (s : BState) :
    Except Err SkipRes :=
  if s.done then
    .ok ((.done, s.inflight), { s with inflight := 0, scanned := s.scanned + s.inflight })
  else skipSomeLoop nd strat atMost fuel s

/-! ### Drivers and initial states -/

/-- Rows of a returned batch (`nullptr` has none). -/
def batchRows : Option (List Doc) → Nat
  | none => 0
  | some out => out.length

/-- Drive `getSome(atMost)` to completion: retry on `WAITING`, accumulate the
row counts of returned batches, stop at `DONE` (or an error, which aborts the
scan). -/
def runGet (nd : PlanNode) (strat : Strategy) (atMost : Nat) :
    Nat → BState → Except Err (Nat × BState)
  | 0, _ => .error .outOfFuel
  | fuel+1, s =>
    match getSomeF nd strat (fuel+1) atMost s with
    | .error e => .error e
    | .ok ((.done, out), s1) => .ok (batchRows out, s1)
    | .ok ((_, out), s1) =>
      match runGet nd strat atMost fuel s1 with
      | .error e => .error e
      | .ok (n, t) => .ok (batchRows out + n, t)

/-- Drive `skipSome(atMost)` to completion: retry on `WAITING`, accumulate
reported counts, stop at `DONE` (or an error). -/
def runSkip (nd : PlanNode) (strat : Strategy) (atMost : Nat) :
    Nat → BState → Except Err (Nat × BState)
  | 0, _ => .error .outOfFuel
  | fuel+1, s =>
    match skipSomeF nd strat (fuel+1) atMost s with
    | .error e => .error e
    | .ok ((.done, k), s1) => .ok (k, s1)
    | .ok ((_, k), s1) =>
      match runSkip nd strat atMost fuel s1 with
      | .error e => .error e
      | .ok (n, t) => .ok (k + n, t)

/-- Retry one `skipSome(atMost)` call across `WAITING` suspensions with
identical arguments until a non-`WAITING` result. -/
def skipRetry (nd : PlanNode) (strat : Strategy) (atMost : Nat) :
    Nat → BState → Except Err SkipRes
  | 0, _ => .error .outOfFuel
  | fuel+1, s =>
    match skipSomeF nd strat (fuel+1) atMost s with
    | .ok ((.waiting, _), s1) => skipRetry nd strat atMost fuel s1
    | r => r

/-- Remove the `WAITING` responses from an upstream stream: the stream an
uninterrupted run would see. -/
def removeWaits (u : List UpResp) : List UpResp :=
  u.filter fun r => match r with | .waiting => false | _ => true

/-- A state with the `WAITING` suspensions erased from its upstream. -/
def dropWaits (s : BState) : BState := { s with upstream := removeWaits s.upstream }

/-- State after `IResearchViewBlockBase::IResearchViewBlockBase`
(IResearchViewBlock.cpp:134-152): `_inflight = 0`, `_hasMore = true`,
`_volatileSort = _volatileFilter = true`, empty buffer, fresh cursor. The
initial `_upstreamState` is `HASMORE` (nothing requested yet). -/
def initialState (u : List UpResp) : BState :=
  { upstream := u, buffer := [], pos := 0, done := false, hasMore := true,
    inflight := 0, upstreamState := .hasMore, segsLeft := [], itr := none,
    volSort := true, volFilter := true, scanned := 0 }

/-- State after `IResearchViewUnorderedBlock`'s constructor
(IResearchViewBlock.cpp:577-583): on top of the base, `_volatileSort = false`. -/
def unorderedInit (u : List UpResp) : BState :=
  { initialState u with volSort := false }

/-- State after `IResearchViewBlock`'s constructor
(IResearchViewBlock.cpp:452-459): the unordered constructor runs first, then
`_volatileSort = true`. -/
def scoredInit (u : List UpResp) : BState :=
  { unorderedInit u with volSort := true }

/-! ### Row context adapter: `ViewExpressionContext::getVariableValue` -/

/-- The data `ViewExpressionContext::getVariableValue` reads: the operator's
output variable, the register plan `varInfo` (variable id to register id),
and the bound row `(_data, _pos)`. Register values (`AqlValue`) are modelled
as naturals. -/
structure ExprCtx where
  outVar : Nat
  varRegs : List (Nat × Nat)
  data : List (List Nat)
  pos : Nat
deriving DecidableEq, Repr

/-- Model of the anonymous-namespace `getRegister` helper
(IResearchViewBlock.cpp:53-63): look the variable up in the register plan;
`none` models the `MaxRegisterId` miss sentinel. -/
def getRegister (v : Nat) (ctx : ExprCtx) : Option Nat :=
  (ctx.varRegs.find? fun p => p.1 == v).map Prod.snd

/-- Value of `AqlItemBlock::getValueReference(_pos, reg)`; out-of-range access
is undefined in C++ and defaulted here. -/
def getValueReference (data : List (List Nat)) (pos reg : Nat) : Nat :=
  (data.getD pos []).getD reg 0

/-- `AqlValue::clone()` yields an independent copy with the same value. -/
def cloneVal (v : Nat) : Nat := v

/-- Model of `ViewExpressionContext::getVariableValue`
(IResearchViewBlock.cpp:103-128): throw `TRI_ERROR_INTERNAL` on a
self-reference or a register-plan miss; otherwise return the current row's
register value, as a caller-owned clone with `mustDestroy = true` when
`doCopy`, and borrowed with `mustDestroy = false` otherwise. -/
def getVariableValue (ctx : ExprCtx) (v : Nat) (doCopy : Bool) :
    Except Err (Nat × Bool) :=
  if v = ctx.outVar then .error .internal
  else
    match getRegister v ctx with
    | none => .error .internal
    | some reg =>
      if doCopy then .ok (cloneVal (getValueReference ctx.data ctx.pos reg), true)
      else .ok (getValueReference ctx.data ctx.pos reg, false)

/-! ### Shared concrete inputs for evaluations and witnesses -/

/-- A match that joins successfully. -/
def dOk : Doc := ⟨true, true, 1⟩

/-- A match whose primary key reads but whose storage join fails (for example
a document deleted between index match and storage read). -/
def dBad : Doc := ⟨true, false, 2⟩

/-- A second successfully joining match. -/
def dOk2 : Doc := ⟨true, true, 3⟩

/-- A plan whose declared volatility is (filter := false, sort := false). -/
def ndFF : PlanNode := ⟨false, false⟩

/-! ### Helper lemmas about the strategy loops -/

theorem scoredInner_mem (ms : List Doc) (l : Nat) :
    ∀ x ∈ (scoredInner ms l).2.2, docReadOk x = true := by
  induction ms generalizing l with
  | nil => cases l <;> simp [scoredInner]
  | cons d ms ih =>
    cases l with
    | zero => simp [scoredInner]
    | succ l =>
      by_cases hd : docReadOk d
      · simp only [scoredInner, hd, if_pos]
        rcases h : scoredInner ms l with ⟨ms2, l2, out⟩
        intro x hx
        rcases List.mem_cons.mp hx with rfl | hx
        · exact hd
        · have := ih l
          rw [h] at this
          exact this x hx
      · simp only [scoredInner, hd, if_neg, Bool.false_eq_true, not_false_iff]
        exact ih (l+1)

theorem scoredNext_mem (segs : List Segment) (itr : Option (List Doc)) (l : Nat) :
    ∀ x ∈ (scoredNext segs itr l).2.2.2.1, docReadOk x = true := by
  induction segs generalizing itr l with
  | nil => simp [scoredNext]
  | cons seg rest ih =>
    simp only [scoredNext]
    rcases h : scoredInner (itr.getD seg) l with ⟨ms, lrem, out⟩
    have hout : ∀ x ∈ out, docReadOk x = true := by
      have := scoredInner_mem (itr.getD seg) l
      rw [h] at this
      exact this
    by_cases hz : lrem = 0
    · simpa [hz] using hout
    · simp only [hz, if_neg, not_false_iff]
      rcases h2 : scoredNext rest none lrem with ⟨segs2, itr2, l2, out2, b⟩
      intro x hx
      simp only [List.mem_append] at hx
      rcases hx with hx | hx
      · exact hout x hx
      · have := ih none lrem
        rw [h2] at this
        exact this x hx

/-! ### Claim C9: `ViewExpressionContext::getVariableValue` -/

/-- C9: the row-context lookup raises an internal error exactly when the
variable is the operator's own output variable or has no register in the
current register layout; otherwise it returns the current row's register
value, with `mustDestroy = true` (caller-owned clone) when a copy is
requested and `mustDestroy = false` (borrowed reference) otherwise. -/
theorem C9_getVariableValue_spec (ctx : ExprCtx) (v : Nat) (doCopy : Bool) :
    (getVariableValue ctx v doCopy = .error .internal ↔
      v = ctx.outVar ∨ getRegister v ctx = none) ∧
    (∀ reg, v ≠ ctx.outVar → getRegister v ctx = some reg →
      getVariableValue ctx v doCopy =
        .ok (getValueReference ctx.data ctx.pos reg, doCopy)) := by
  constructor
  · unfold getVariableValue
    by_cases hv : v = ctx.outVar
    · simp [hv]
    · simp only [hv, if_neg, not_false_iff]
      cases h : getRegister v ctx with
      | none => simp [hv, h]
      | some reg =>
        cases doCopy <;> simp [hv, h]
  · intro reg hv hreg
    unfold getVariableValue
    simp only [hv, if_neg, not_false_iff, hreg]
    cases doCopy <;> simp [cloneVal]

/-- Concrete register layout for the C9 witness: output variable 99,
variable 2 in register 1, row values [10, 20]. -/
def ctx9 : ExprCtx := ⟨99, [(1, 0), (2, 1)], [[10, 20]], 0⟩

theorem C9_witness :
    getVariableValue ctx9 2 true = .ok (getValueReference ctx9.data ctx9.pos 1, true) :=
  (C9_getVariableValue_spec ctx9 2 true).2 1 (by decide) (by decide)

/-! ### Claim C5: failed joins in the scored strategy -/

/-- C5: in `IResearchViewBlock::next`, a match whose storage join (or
primary-key read) fails is silently skipped: with budget remaining it
consumes no limit, produces no output row (hence writes no score registers),
and scanning continues with the next match of the same iterator; moreover no
failed match ever appears among the produced rows. -/
theorem C5_scored_failed_join_skipped (d : Doc) (ms : List Doc)
    (seg : Segment) (rest : List Segment) (limit : Nat)
    (hfail : docReadOk d = false) (hl : 0 < limit) :
    scoredNext (seg :: rest) (some (d :: ms)) limit =
      scoredNext (seg :: rest) (some ms) limit ∧
    (∀ segs itr l x, x ∈ (scoredNext segs itr l).2.2.2.1 → docReadOk x = true) := by
  constructor
  · obtain ⟨l, rfl⟩ : ∃ l, limit = l + 1 :=
      ⟨limit - 1, (Nat.succ_pred_eq_of_pos hl).symm⟩
    simp only [scoredNext, Option.getD_some]
    rw [show scoredInner (d :: ms) (l+1) = scoredInner ms (l+1) by
      simp [scoredInner, hfail]]
  · intro segs itr l x hx
    exact scoredNext_mem segs itr l x hx

theorem C5_witness :
    scoredNext [[dBad, dOk]] (some [dBad, dOk]) 1 =
      scoredNext [[dBad, dOk]] (some [dOk]) 1 :=
  (C5_scored_failed_join_skipped dBad [dOk] [dBad, dOk] [] 1 (by decide) (by decide)).1

/-! ### Claim C4: the unordered strategy's budget and segment lifecycle -/

/-- C4 evaluation at the failing input: one segment with matches
`[dOk, dBad, dOk2]` and `limit = 2`. `readPKs` accepts both `dOk` and `dBad`
into the buffer (consuming the whole collection budget); `dBad`'s join then
fails, and because `IResearchViewUnorderedBlock::next` decrements `limit`
only for successful joins, it finds `limit = 1 ≠ 0` after the join pass,
advances past the segment (`++_readerOffset; _itr.reset()`) although the
iterator still holds `dOk2`, and returns `false`: `dOk2` is silently lost.
The scored strategy on the same input keeps the iterator, returns both
joinable documents and reports `true` — the claimed behaviour. -/
theorem C4_unordered_budget_eval :
    unorderedNext [[dOk, dBad, dOk2]] none 2 = ([], none, 1, [dOk], false) ∧
    readPKs [dOk, dBad, dOk2] 2 = ([dOk, dBad], [dOk2]) ∧
    scoredNext [[dOk, dBad, dOk2]] none 2 =
      ([[dOk, dBad, dOk2]], some [], 0, [dOk, dOk2], true) := by
  refine ⟨?_, ?_, ?_⟩ <;> rfl

/-! ### Claim C6: volatility flags after `reset()` -/

/-- Row used by the volatility counterexample (its scan content is irrelevant). -/
def row6 : Row := ⟨true, true, []⟩

/-- State with volatile-sort set but volatile-filter clear before `reset()`. -/
def state6 : BState :=
  { initialState [] with buffer := [[row6]], volSort := true, volFilter := false }

/-- C6 counterexample: starting from flag values volatile-sort = true,
volatile-filter = false, `reset()` completes (taking the non-volatile-filter
no-op branch) and leaves exactly those flags, so after the call
volatile-sort = true does not imply volatile-filter = true. The claim's
"regardless of the flags' values before the call" therefore fails; it holds
for the states the constructors actually produce (see the amended theorem). -/
theorem C6_counterexample :
    (reset ndFF state6).toOption.map (fun t => (t.volSort, t.volFilter)) =
      some (true, false) ∧ state6.volSort = true ∧ state6.volFilter = false := by
  refine ⟨rfl, rfl, rfl⟩

/-- C6 (amended): after every completed `reset()` from a state satisfying
volatile-sort ⇒ volatile-filter — which covers every reachable state, since
both constructors establish the implication (`IResearchViewBlock` starts
(true, true), `IResearchViewUnorderedBlock` starts (false, true)) and every
`reset()` preserves it — the implication holds again, whatever the declared
plan volatility. -/
theorem C6_reset_volatility (nd : PlanNode) (s s2 : BState)
    (hpre : s.volSort = true → s.volFilter = true)
    (hres : reset nd s = .ok s2) :
    s2.volSort = true → s2.volFilter = true := by
  unfold reset at hres
  cases hrow : currentRow s with
  | none => rw [hrow] at hres; exact absurd hres (by simp)
  | some r =>
    rw [hrow] at hres
    by_cases hvf : s.volFilter
    · simp only [hvf, if_pos] at hres
      by_cases hfo : r.filterOk
      · by_cases hso : s.volSort && !r.scorersOk
        · simp [hfo, hso] at hres
        · simp only [hfo, hso, Bool.not_true, if_neg, if_false,
            Bool.false_eq_true, not_false_iff, Except.ok.injEq] at hres
          subst hres
          intro h
          simp only at h ⊢
          simp [h]
      · simp [hfo] at hres
    · simp only [hvf, if_neg, Bool.false_eq_true, not_false_iff,
        Except.ok.injEq] at hres
      subst hres
      intro h
      exact absurd (hpre h) hvf

/-- Witness state for the amended C6: the scored constructor state with one
buffered row. -/
def state6b : BState :=
  { scoredInit [] with buffer := [[row6]] }

/-- Plan node declaring a volatile sort (so the refreshed flags keep
volatile-sort set). -/
def nd6 : PlanNode := ⟨false, true⟩

/-- The state the amended C6 witness observes after `reset`. -/
def state6c : BState :=
  { state6b with
    volSort := nd6.volSortDecl,
    volFilter := nd6.volSortDecl || nd6.volFilterDecl,
    segsLeft := row6.segs, itr := none }

theorem C6_witness : state6c.volFilter = true :=
  C6_reset_volatility nd6 state6b state6c (by decide) rfl rfl

/-! ### Claim C10: `skipSome` on an already-done block -/

/-- C10: `skipSome(atMost)` on a block already `DONE` returns `DONE` together
with the current in-flight counter, adds it to the documents-scanned
statistic and resets the counter to zero; repeating the call reports
`(DONE, 0)` and changes nothing further, so a stale count is never reported
twice. -/
theorem C10_skipSome_done (nd : PlanNode) (strat : Strategy)
    (fuel atMost : Nat) (s : BState) (h : s.done = true) :
    skipSomeF nd strat fuel atMost s =
      .ok ((.done, s.inflight),
        { s with inflight := 0, scanned := s.scanned + s.inflight }) ∧
    skipSomeF nd strat fuel atMost
        { s with inflight := 0, scanned := s.scanned + s.inflight } =
      .ok ((.done, 0),
        { s with inflight := 0, scanned := s.scanned + s.inflight }) := by
  constructor
  · unfold skipSomeF
    simp [h]
  · unfold skipSomeF
    simp [h]

/-- Witness state for C10: already done, with a nonzero in-flight counter
left by a previously interrupted skip. -/
def state10 : BState :=
  { initialState [] with done := true, inflight := 1, scanned := 5 }

theorem C10_witness :
    skipSomeF ndFF scoredStrategy 3 7 state10 =
      .ok ((.done, state10.inflight),
        { state10 with inflight := 0, scanned := state10.scanned + state10.inflight }) :=
  (C10_skipSome_done ndFF scoredStrategy 3 7 state10 (by decide)).1

/-! ### Helper lemmas about the controller steps -/

theorem getBlockStep_done (s : BState) : (getBlockStep s).2.done = s.done := by
  unfold getBlockStep
  cases hu : s.upstream with
  | nil => rfl
  | cons r rest => cases r <;> rfl

/-- Full characterisation of a successful `reset`. -/
theorem reset_ok_eq (nd : PlanNode) (x y : BState) (h : reset nd x = .ok y) :
    ∃ r, currentRow x = some r ∧
      ((x.volFilter = true ∧ r.filterOk = true ∧ (x.volSort && !r.scorersOk) = false ∧
        y = { x with volSort := nd.volSortDecl,
                     volFilter := nd.volSortDecl || nd.volFilterDecl,
                     segsLeft := r.segs, itr := none }) ∨
       (x.volFilter = false ∧ y = { x with segsLeft := r.segs, itr := none })) := by
  unfold reset at h
  split at h
  · exact absurd h (by simp)
  · next r hrow =>
    refine ⟨r, hrow, ?_⟩
    by_cases hvf : x.volFilter
    · rw [if_pos hvf] at h
      by_cases hfo : r.filterOk
      · rw [hfo] at h
        rw [if_neg (by simp)] at h
        by_cases hso : x.volSort && !r.scorersOk
        · rw [if_pos hso] at h; exact absurd h (by simp)
        · rw [if_neg hso] at h
          exact Or.inl ⟨hvf, hfo, by simpa using hso, (Except.ok.inj h).symm⟩
      · have hfo2 : r.filterOk = false := by simpa using hfo
        rw [hfo2] at h
        rw [if_pos (by simp)] at h
        exact absurd h (by simp)
    · rw [if_neg hvf] at h
      exact Or.inr ⟨by simpa using hvf, (Except.ok.inj h).symm⟩

theorem reset_frame (nd : PlanNode) (x y : BState) (h : reset nd x = .ok y) :
    y.done = x.done ∧ y.buffer = x.buffer ∧ y.pos = x.pos ∧
    y.upstream = x.upstream ∧ y.inflight = x.inflight ∧
    y.hasMore = x.hasMore ∧ y.upstreamState = x.upstreamState ∧
    y.scanned = x.scanned := by
  rcases reset_ok_eq nd x y h with ⟨r, _, ⟨_, _, _, rfl⟩ | ⟨_, rfl⟩⟩ <;>
    exact ⟨rfl, rfl, rfl, rfl, rfl, rfl, rfl, rfl⟩

theorem getHasMoreState_shape (s : BState) :
    (getHasMoreState s).1 = .done ∨ (getHasMoreState s).1 = .hasMore := by
  unfold getHasMoreState
  split
  · exact Or.inl rfl
  · split
    · exact Or.inl rfl
    · exact Or.inr rfl

theorem fetchIfEmpty_cases (nd : PlanNode) (s : BState) (res : GetRes ⊕ BState)
    (h : fetchIfEmpty nd s = .ok res) :
    (∃ s1, res = .inr s1 ∧ s1.done = s.done) ∨
    (∃ s1, res = .inl ((.waiting, none), s1) ∧ s1.done = s.done) ∨
    (∃ s1, res = .inl ((.done, none), s1) ∧ s1.done = true) := by
  unfold fetchIfEmpty at h
  by_cases hb : s.buffer.isEmpty
  · rw [if_pos hb] at h
    rcases hg : getBlockStep s with ⟨⟨st, got⟩, s1⟩
    have hd1 : s1.done = s.done := by
      have := getBlockStep_done s
      rw [hg] at this
      exact this
    rw [hg] at h
    cases st with
    | waiting =>
      simp only [Except.ok.injEq] at h
      exact Or.inr (Or.inl ⟨s1, h.symm, hd1⟩)
    | hasMore =>
      simp only at h
      cases got with
      | true =>
        simp only [if_pos] at h
        cases hr : reset nd { s1 with upstreamState := .hasMore, pos := 0 } with
        | error e => rw [hr] at h; exact absurd h (by simp)
        | ok s2 =>
          rw [hr] at h
          simp only [Except.ok.injEq] at h
          refine Or.inl ⟨s2, h.symm, ?_⟩
          have := (reset_frame nd _ s2 hr).1
          simpa [this] using hd1
      | false =>
        simp only [Bool.false_eq_true, if_neg, not_false_iff, Except.ok.injEq] at h
        exact Or.inr (Or.inr ⟨_, h.symm, rfl⟩)
    | done =>
      simp only at h
      cases got with
      | true =>
        simp only [if_pos] at h
        cases hr : reset nd { s1 with upstreamState := .done, pos := 0 } with
        | error e => rw [hr] at h; exact absurd h (by simp)
        | ok s2 =>
          rw [hr] at h
          simp only [Except.ok.injEq] at h
          refine Or.inl ⟨s2, h.symm, ?_⟩
          have := (reset_frame nd _ s2 hr).1
          simpa [this] using hd1
      | false =>
        simp only [Bool.false_eq_true, if_neg, not_false_iff, Except.ok.injEq] at h
        exact Or.inr (Or.inr ⟨_, h.symm, rfl⟩)
  · rw [if_neg hb] at h
    simp only [Except.ok.injEq] at h
    exact Or.inl ⟨s, h.symm, rfl⟩

theorem ensureRow_cases (nd : PlanNode) : ∀ (fuel : Nat) (s : BState)
    (res : GetRes ⊕ BState), ensureRow nd fuel s = .ok res →
    (∃ s1, res = .inr s1 ∧ s1.done = s.done) ∨
    (∃ s1, res = .inl ((.waiting, none), s1) ∧ s1.done = s.done) ∨
    (∃ s1, res = .inl ((.done, none), s1) ∧ s1.done = true) := by
  intro fuel
  induction fuel with
  | zero => intro s res h; exact absurd h (by simp [ensureRow])
  | succ fuel ih =>
    intro s res h
    unfold ensureRow at h
    cases hf : fetchIfEmpty nd s with
    | error e => rw [hf] at h; exact absurd h (by simp)
    | ok r0 =>
      rw [hf] at h
      rcases fetchIfEmpty_cases nd s r0 hf with ⟨s1, rfl, hd⟩ | ⟨s1, rfl, hd⟩ | ⟨s1, rfl, hd⟩
      · simp only at h
        by_cases hm : s1.hasMore
        · rw [if_pos hm] at h
          simp only [Except.ok.injEq] at h
          exact Or.inl ⟨s1, h.symm, hd⟩
        · rw [if_neg hm] at h
          split at h
          · exact absurd h (by simp)
          · next cur restBuf hbuf =>
            split at h
            · rcases ih _ _ h with ⟨s2, rfl, hd2⟩ | ⟨s2, rfl, hd2⟩ | ⟨s2, rfl, hd2⟩
              · exact Or.inl ⟨s2, rfl, by rw [hd2]; exact hd⟩
              · exact Or.inr (Or.inl ⟨s2, rfl, by rw [hd2]; exact hd⟩)
              · exact Or.inr (Or.inr ⟨s2, rfl, hd2⟩)
            · split at h
              · exact absurd h (by simp)
              · next s2 hr =>
                have hd2 : s2.done = s1.done := (reset_frame nd _ s2 hr).1
                rcases ih _ _ h with ⟨s3, rfl, hd3⟩ | ⟨s3, rfl, hd3⟩ | ⟨s3, rfl, hd3⟩
                · exact Or.inl ⟨s3, rfl, by rw [hd3, hd2]; exact hd⟩
                · exact Or.inr (Or.inl ⟨s3, rfl, by rw [hd3, hd2]; exact hd⟩)
                · exact Or.inr (Or.inr ⟨s3, rfl, hd3⟩)
      · simp only [Except.ok.injEq] at h
        exact Or.inr (Or.inl ⟨s1, h.symm, hd⟩)
      · simp only [Except.ok.injEq] at h
        exact Or.inr (Or.inr ⟨s1, h.symm, hd⟩)

theorem getSomeLoop_shape (nd : PlanNode) (strat : Strategy) (atMost : Nat) :
    ∀ (fuel : Nat) (s : BState) (st : ExecState) (out : Option (List Doc))
    (s2 : BState), getSomeLoop nd strat atMost fuel s = .ok ((st, out), s2) →
    (st = .hasMore → ∃ o, out = some o ∧ o ≠ []) ∧
    (batchRows out = 0 → st = .waiting ∨ st = .done) := by
  intro fuel
  induction fuel with
  | zero => intro s st out s2 h; exact absurd h (by simp [getSomeLoop])
  | succ fuel ih =>
    intro s st out s2 h
    unfold getSomeLoop at h
    cases he : ensureRow nd (fuel+1) s with
    | error e => rw [he] at h; exact absurd h (by simp)
    | ok r0 =>
      rw [he] at h
      rcases ensureRow_cases nd _ _ _ he with ⟨s1, rfl, _⟩ | ⟨s1, rfl, _⟩ | ⟨s1, rfl, _⟩
      · rcases hn : strat.nextStep s1.segsLeft s1.itr atMost with ⟨segs2, itr2, l2, out0, hm⟩
        simp only [hn] at h
        by_cases hemp : out0.isEmpty
        · rw [if_pos hemp] at h
          exact ih _ _ _ _ h
        · rw [if_neg hemp] at h
          simp only [Except.ok.injEq, Prod.mk.injEq] at h
          obtain ⟨⟨hst, hout⟩, _⟩ := h
          subst hst hout
          have hne : out0 ≠ [] := by
            intro hc; rw [hc] at hemp; exact hemp rfl
          constructor
          · intro _; exact ⟨out0, rfl, hne⟩
          · intro hz
            exact absurd (List.length_eq_zero.mp hz) hne
      · simp only [Except.ok.injEq, Prod.mk.injEq] at h
        obtain ⟨⟨hst, hout⟩, _⟩ := h
        subst hst hout
        exact ⟨(by intro hc; cases hc), fun _ => Or.inl rfl⟩
      · simp only [Except.ok.injEq, Prod.mk.injEq] at h
        obtain ⟨⟨hst, hout⟩, _⟩ := h
        subst hst hout
        exact ⟨(by intro hc; cases hc), fun _ => Or.inr rfl⟩

/-! ### Claim C1: `getSome` never pairs `HASMORE` with an empty batch -/

/-- C1: a completed call `getSome(atMost)` with `atMost > 0` never returns
`(HASMORE, zero-row batch)`: whenever the returned state is `HASMORE` the
returned batch holds at least one row, and a zero-row result (a `nullptr`
batch) is returned only together with `WAITING` or `DONE`. -/
theorem C1_getSome_no_empty_hasMore (nd : PlanNode) (strat : Strategy)
    (fuel atMost : Nat) (s : BState) (st : ExecState)
    (out : Option (List Doc)) (s2 : BState) (hpos : 0 < atMost)
    (h : getSomeF nd strat fuel atMost s = .ok ((st, out), s2)) :
    (st = .hasMore → ∃ o, out = some o ∧ o ≠ []) ∧
    (batchRows out = 0 → st = .waiting ∨ st = .done) := by
  unfold getSomeF at h
  by_cases hd : s.done
  · rw [if_pos hd] at h
    simp only [Except.ok.injEq, Prod.mk.injEq] at h
    obtain ⟨⟨hst, hout⟩, _⟩ := h
    subst hst hout
    exact ⟨(by intro hc; cases hc), fun _ => Or.inr rfl⟩
  · rw [if_neg hd] at h
    exact getSomeLoop_shape nd strat atMost fuel s st out s2 h

/-- An already-done state used by the C1 witness. -/
def state1 : BState := { initialState [] with done := true }

theorem C1_witness :
    (ExecState.done = ExecState.hasMore →
      ∃ o, (none : Option (List Doc)) = some o ∧ o ≠ []) ∧
    (batchRows (none : Option (List Doc)) = 0 →
      ExecState.done = ExecState.waiting ∨ ExecState.done = ExecState.done) :=
  C1_getSome_no_empty_hasMore ndFF scoredStrategy 1 1 state1 .done none state1
    (by decide) rfl


/-! ### Claim C7: compilation failures in `reset` abort the scan -/

/-- C7: when `reset()` must recompile (volatile filter) and the current row's
filter translation fails — or its filter compiles but, with a volatile sort,
a scorer does not — `reset()` raises `TRI_ERROR_BAD_PARAMETER`; the
`getSome`/`skipSome` call that triggers this `reset` propagates the error
unchanged and produces no batch, and the driver, which per the protocol
aborts the scan on a non-retryable error, yields no output batch at all. -/
theorem C7_reset_bad_parameter (nd : PlanNode) (strat : Strategy)
    (fuel atMost : Nat) (s : BState) (last : Bool) (r : Row) (rs : Block)
    (rest : List UpResp)
    (hdone : s.done = false) (hbuf : s.buffer = [])
    (hup : s.upstream = .yield last (r :: rs) :: rest)
    (hvf : s.volFilter = true)
    (hfail : r.filterOk = false ∨ (s.volSort = true ∧ r.scorersOk = false))
    (hin : s.inflight < atMost) :
    (∀ t : BState, currentRow t = some r → t.volFilter = true →
      t.volSort = s.volSort → reset nd t = .error .badParameter) ∧
    getSomeF nd strat (fuel+1) atMost s = .error .badParameter ∧
    skipSomeF nd strat (fuel+1) atMost s = .error .badParameter ∧
    runGet nd strat atMost (fuel+1) s = .error .badParameter := by
  have hres : ∀ t : BState, currentRow t = some r → t.volFilter = true →
      t.volSort = s.volSort → reset nd t = .error .badParameter := by
    intro t hrow hvf2 hvs
    unfold reset
    rw [hrow]
    simp only [hvf2, if_true]
    rcases hfail with hf | ⟨hvs2, hsc⟩
    · simp [hf]
    · by_cases hf : r.filterOk
      · simp [hf, hvs, hvs2, hsc]
      · simp at hf
        simp [hf]
  obtain ⟨up, buf, pos0, dn, hm0, infl, ups, sgs, itr0, vs, vf, sc⟩ := s
  simp only at hdone hbuf hup hvf hin hres
  subst hdone hbuf hup hvf
  have hresX : ∀ st0 : ExecState,
      reset nd ⟨rest, [r :: rs], 0, false, hm0, infl, st0, sgs, itr0, vs, true, sc⟩ =
        .error .badParameter := fun st0 => hres _ (by unfold currentRow; simp) rfl rfl
  have hge : getSomeF nd strat (fuel+1) atMost
      ⟨UpResp.yield last (r :: rs) :: rest, [], pos0, false, hm0, infl, ups, sgs, itr0, vs, true, sc⟩ =
      .error .badParameter := by
    unfold getSomeF getSomeLoop ensureRow fetchIfEmpty getBlockStep
    cases last <;> simp [hresX]
  refine ⟨hres, hge, ?_, ?_⟩
  · unfold skipSomeF skipSomeLoop skipFetch getBlockStep
    cases last <;> simp [hin, hresX]
  · unfold runGet
    rw [hge]

/-- A row whose filter condition fails to translate. -/
def rowF : Row := ⟨false, true, [[dOk]]⟩

/-- A fresh scored block whose only upstream row is `rowF`. -/
def stateF : BState := scoredInit [.yield false [rowF]]

theorem C7_witness :
    getSomeF ndFF scoredStrategy 6 2 stateF = .error .badParameter :=
  (C7_reset_bad_parameter ndFF scoredStrategy 5 2 stateF false rowF [] []
    rfl rfl rfl rfl (Or.inl rfl) (by decide)).2.1

theorem getBlockStep_inflight (s : BState) :
    (getBlockStep s).2.inflight = s.inflight := by
  unfold getBlockStep
  cases hu : s.upstream with
  | nil => rfl
  | cons r rest => cases r <;> rfl

theorem skipFetch_cases (nd : PlanNode) (s : BState) (res : SkipRes ⊕ BState)
    (h : skipFetch nd s = .ok res) :
    (∃ s1, res = .inr s1 ∧ s1.done = s.done ∧ s1.inflight = s.inflight) ∨
    (∃ s1, res = .inl ((.waiting, 0), s1) ∧ s1.done = s.done ∧
      s1.inflight = s.inflight) ∨
    (∃ s1, res = .inl ((.done, s.inflight), s1) ∧ s1.done = true ∧
      s1.inflight = 0) := by
  unfold skipFetch at h
  by_cases hb : s.buffer.isEmpty
  · rw [if_pos hb] at h
    rcases hg : getBlockStep s with ⟨⟨st, got⟩, s1⟩
    have hd1 : s1.done = s.done := by
      have := getBlockStep_done s
      rw [hg] at this; exact this
    have hi1 : s1.inflight = s.inflight := by
      have := getBlockStep_inflight s
      rw [hg] at this; exact this
    rw [hg] at h
    cases st with
    | waiting =>
      simp only [Except.ok.injEq] at h
      exact Or.inr (Or.inl ⟨s1, h.symm, hd1, hi1⟩)
    | hasMore =>
      simp only at h
      cases got with
      | true =>
        simp only [if_pos] at h
        cases hr : reset nd { s1 with upstreamState := .hasMore, pos := 0 } with
        | error e => rw [hr] at h; exact absurd h (by simp)
        | ok s2 =>
          rw [hr] at h
          simp only [Except.ok.injEq] at h
          have hf := reset_frame nd _ s2 hr
          exact Or.inl ⟨s2, h.symm, by rw [hf.1]; exact hd1, by rw [hf.2.2.2.2.1]; exact hi1⟩
      | false =>
        simp only [Bool.false_eq_true, if_neg, not_false_iff, Except.ok.injEq] at h
        rw [hi1] at h
        exact Or.inr (Or.inr ⟨_, h.symm, rfl, rfl⟩)
    | done =>
      simp only at h
      cases got with
      | true =>
        simp only [if_pos] at h
        cases hr : reset nd { s1 with upstreamState := .done, pos := 0 } with
        | error e => rw [hr] at h; exact absurd h (by simp)
        | ok s2 =>
          rw [hr] at h
          simp only [Except.ok.injEq] at h
          have hf := reset_frame nd _ s2 hr
          exact Or.inl ⟨s2, h.symm, by rw [hf.1]; exact hd1, by rw [hf.2.2.2.2.1]; exact hi1⟩
      | false =>
        simp only [Bool.false_eq_true, if_neg, not_false_iff, Except.ok.injEq] at h
        rw [hi1] at h
        exact Or.inr (Or.inr ⟨_, h.symm, rfl, rfl⟩)
  · rw [if_neg hb] at h
    simp only [Except.ok.injEq] at h
    exact Or.inl ⟨s, h.symm, rfl, rfl⟩

theorem finishSkip_fst (s : BState) :
    (finishSkip s).1 =
      ((getHasMoreState { s with scanned := s.scanned + s.inflight, inflight := 0 }).1,
       s.inflight) := rfl

theorem finishSkip_not_waiting (s : BState) : (finishSkip s).1.1 ≠ .waiting := by
  rw [finishSkip_fst]
  rcases getHasMoreState_shape
      { s with scanned := s.scanned + s.inflight, inflight := 0 } with hh | hh <;>
    simp [hh]

theorem skipSomeLoop_waiting (nd : PlanNode) (strat : Strategy) (atMost : Nat) :
    ∀ (fuel : Nat) (s : BState) (k : Nat) (s2 : BState),
    skipSomeLoop nd strat atMost fuel s = .ok ((.waiting, k), s2) →
    k = 0 ∧ s2.done = s.done ∧ s2.inflight < atMost := by
  intro fuel
  induction fuel with
  | zero => intro s k s2 h; exact absurd h (by simp [skipSomeLoop])
  | succ fuel ih =>
    intro s k s2 h
    unfold skipSomeLoop at h
    by_cases hin : s.inflight < atMost
    · rw [if_pos hin] at h
      cases hf : skipFetch nd s with
      | error e => rw [hf] at h; exact absurd h (by simp)
      | ok r0 =>
        rw [hf] at h
        rcases skipFetch_cases nd s r0 hf with
          ⟨s1, rfl, hd, hi⟩ | ⟨s1, rfl, hd, hi⟩ | ⟨s1, rfl, hd, hi⟩
        · simp only at h
          unfold skipBody at h
          split at h
          · exact absurd h (by simp)
          · next cur restBuf hbuf =>
            rcases hsk : strat.skipStep s1.segsLeft s1.itr (atMost - s1.inflight) with
              ⟨segs2, itr2, kk⟩
            simp only [hsk] at h
            by_cases h2 : s1.inflight + kk < atMost
            · rw [if_pos h2] at h
              split at h
              · have hx := ih _ _ _ h
                exact ⟨hx.1, by rw [hx.2.1]; simp only; rw [hd], hx.2.2⟩
              · split at h
                · exact absurd h (by simp)
                · next s3 hr =>
                  have hx := ih _ _ _ h
                  have hf3 := (reset_frame nd _ s3 hr).1
                  exact ⟨hx.1, by rw [hx.2.1, hf3]; simp only; rw [hd], hx.2.2⟩
            · rw [if_neg h2] at h
              simp only [Except.ok.injEq] at h
              exact absurd (congrArg (fun p => p.1.1) h) (finishSkip_not_waiting _)
        · simp only [Except.ok.injEq, Prod.mk.injEq] at h
          obtain ⟨⟨_, hk⟩, hs⟩ := h
          subst hk hs
          exact ⟨rfl, hd, by rw [hi]; exact hin⟩
        · simp only [Except.ok.injEq, Prod.mk.injEq] at h
          exact absurd h.1.1 (by simp)
    · rw [if_neg hin] at h
      simp only [Except.ok.injEq] at h
      exact absurd (congrArg (fun p => p.1.1) h) (finishSkip_not_waiting _)

theorem getSomeLoop_waiting (nd : PlanNode) (strat : Strategy) (atMost : Nat) :
    ∀ (fuel : Nat) (s : BState) (p : Option (List Doc)) (s2 : BState),
    getSomeLoop nd strat atMost fuel s = .ok ((.waiting, p), s2) →
    p = none ∧ s2.done = s.done := by
  intro fuel
  induction fuel with
  | zero => intro s p s2 h; exact absurd h (by simp [getSomeLoop])
  | succ fuel ih =>
    intro s p s2 h
    unfold getSomeLoop at h
    cases he : ensureRow nd (fuel+1) s with
    | error e => rw [he] at h; exact absurd h (by simp)
    | ok r0 =>
      rw [he] at h
      rcases ensureRow_cases nd _ _ _ he with ⟨s1, rfl, hd⟩ | ⟨s1, rfl, hd⟩ | ⟨s1, rfl, hd⟩
      · rcases hn : strat.nextStep s1.segsLeft s1.itr atMost with ⟨segs2, itr2, l2, out0, hm⟩
        simp only [hn] at h
        by_cases hemp : out0.isEmpty
        · rw [if_pos hemp] at h
          have hx := ih _ _ _ h
          exact ⟨hx.1, by rw [hx.2]; simp only; rw [hd]⟩
        · rw [if_neg hemp] at h
          simp only [Except.ok.injEq, Prod.mk.injEq] at h
          have hst := h.1.1
          rcases getHasMoreState_shape
              { s1 with
                segsLeft := segs2, itr := itr2, hasMore := hm,
                scanned := s1.scanned + out0.length } with hh | hh <;>
            rw [hh] at hst <;> exact absurd hst (by simp)
      · simp only [Except.ok.injEq, Prod.mk.injEq] at h
        obtain ⟨⟨_, hp⟩, hs⟩ := h
        subst hp hs
        exact ⟨rfl, hd⟩
      · simp only [Except.ok.injEq, Prod.mk.injEq] at h
        exact absurd h.1.1 (by simp)

/-! ### Claim C8: state at a `WAITING` return -/

/-- Row and state used by the C8 counterexample: a fresh scored block whose
upstream yields one single-row block (one match) and then suspends. -/
def row8 : Row := ⟨true, true, [[dOk]]⟩

/-- Entry state of the C8 counterexample call. -/
def state8 : BState := scoredInit [.yield false [row8], .waiting]

/-- C8 counterexample: calling `skipSome(2)` on `state8` consumes the input
row, skips its single match — accumulating `_inflight` from 0 to 1 and
refreshing the compiled-predicate volatility flags — and only then hits the
upstream `WAITING`, returning `(WAITING, 0)` with the mutated state: the
in-flight skip counter (and the compiled-predicate state) at the `WAITING`
return differ from their values on entry, refuting "no internal state of the
operator has changed in that call". (The mutation is precisely the
already-completed work the accumulation design of `skipSome` is meant to
keep.) -/
theorem C8_counterexample :
    state8.inflight = 0 ∧ state8.volFilter = true ∧
    (skipSomeF ndFF scoredStrategy 9 2 state8).toOption.map
        (fun p => (p.1, p.2.inflight, p.2.volFilter)) =
      some ((.waiting, 0), 1, false) := ⟨rfl, rfl, rfl⟩

/-- C8 (amended): a `WAITING` return of `getSome`/`skipSome` carries no
payload (a `nullptr` batch, a zero count) and leaves the block un-`done`, so
the caller must retry with identical arguments; and when the suspension
happens before any work — empty input buffer and the next upstream response
`WAITING` — the call changes no internal state at all beyond consuming that
response. (After partial progress, a `WAITING` return keeps the completed
work — consumed input rows, accumulated `_inflight`, recompiled predicate —
see the counterexample; the accumulated count is reported exactly once, per
C2.) -/
theorem C8_waiting_frame (nd : PlanNode) (strat : Strategy)
    (fuel atMost : Nat) (s : BState) (u : List UpResp)
    (hbuf : s.buffer = []) (hup : s.upstream = .waiting :: u)
    (hdone : s.done = false) (hin : s.inflight < atMost) :
    getSomeF nd strat (fuel+1) atMost s =
      .ok ((.waiting, none), { s with upstream := u }) ∧
    skipSomeF nd strat (fuel+1) atMost s =
      .ok ((.waiting, 0), { s with upstream := u }) ∧
    (∀ (f : Nat) (t : BState) (p : Option (List Doc)) (t2 : BState),
      getSomeF nd strat f atMost t = .ok ((.waiting, p), t2) →
      p = none ∧ t.done = false ∧ t2.done = false) ∧
    (∀ (f : Nat) (t : BState) (k : Nat) (t2 : BState),
      skipSomeF nd strat f atMost t = .ok ((.waiting, k), t2) →
      k = 0 ∧ t.done = false ∧ t2.done = false) := by
  obtain ⟨up, buf, pos0, dn, hm0, infl, ups, sgs, itr0, vs, vf, sc⟩ := s
  simp only at hbuf hup hdone hin
  subst hbuf hup hdone
  refine ⟨?_, ?_, ?_, ?_⟩
  · unfold getSomeF getSomeLoop ensureRow fetchIfEmpty getBlockStep
    simp
  · unfold skipSomeF skipSomeLoop skipFetch getBlockStep
    simp [hin]
  · intro f t p t2 h
    unfold getSomeF at h
    by_cases ht : t.done
    · rw [if_pos ht] at h
      simp at h
    · rw [if_neg ht] at h
      have hx := getSomeLoop_waiting nd strat atMost f t p t2 h
      exact ⟨hx.1, by simpa using ht, by rw [hx.2]; simpa using ht⟩
  · intro f t k t2 h
    unfold skipSomeF at h
    by_cases ht : t.done
    · rw [if_pos ht] at h
      simp at h
    · rw [if_neg ht] at h
      have hx := skipSomeLoop_waiting nd strat atMost f t k t2 h
      exact ⟨hx.1, by simpa using ht, by rw [hx.2.1]; simpa using ht⟩

theorem C8_witness :
    getSomeF ndFF scoredStrategy 3 1 (initialState [.waiting]) =
      .ok ((.waiting, none), { initialState [.waiting] with upstream := [] }) :=
  (C8_waiting_frame ndFF scoredStrategy 2 1 (initialState [.waiting]) []
    rfl rfl rfl (by decide)).1

/-! ### Claim C2 machinery: erasing `WAITING` suspensions from the upstream -/

theorem removeWaits_nil : removeWaits [] = [] := rfl

theorem removeWaits_waiting (u : List UpResp) :
    removeWaits (.waiting :: u) = removeWaits u := rfl

theorem removeWaits_yield (last : Bool) (b : Block) (u : List UpResp) :
    removeWaits (.yield last b :: u) = .yield last b :: removeWaits u := rfl

theorem removeWaits_exhausted (u : List UpResp) :
    removeWaits (.exhausted :: u) = .exhausted :: removeWaits u := rfl

theorem dropWaits_upstream (s : BState) :
    (dropWaits s).upstream = removeWaits s.upstream := rfl

theorem reset_dropWaits (nd : PlanNode) (x : BState) :
    reset nd (dropWaits x) = (reset nd x).map dropWaits := by
  obtain ⟨up, buf, pos0, dn, hm0, infl, ups, sgs, itr0, vs, vf, sc⟩ := x
  unfold reset currentRow dropWaits
  simp only
  cases buf with
  | nil => rfl
  | cons b bs =>
    simp only
    cases hrow : b[pos0]? with
    | none => rfl
    | some r =>
      simp only
      cases vf with
      | false => rfl
      | true =>
        cases hfo : r.filterOk with
        | false => rfl
        | true =>
          cases vs with
          | false => rfl
          | true =>
            cases hsc : r.scorersOk with
            | false => rfl
            | true => rfl

theorem getHasMoreState_dropWaits (s : BState) :
    getHasMoreState (dropWaits s) =
      ((getHasMoreState s).1, dropWaits (getHasMoreState s).2) := by
  obtain ⟨up, buf, pos0, dn, hm0, infl, ups, sgs, itr0, vs, vf, sc⟩ := s
  unfold getHasMoreState dropWaits
  simp only
  cases dn with
  | true => rfl
  | false =>
    by_cases hc : List.isEmpty buf = true ∧ ups = ExecState.done
    · rw [if_pos hc, if_pos hc]; rfl
    · rw [if_neg hc, if_neg hc]; rfl

theorem finishSkip_dropWaits (s : BState) :
    finishSkip (dropWaits s) = ((finishSkip s).1, dropWaits (finishSkip s).2) := by
  unfold finishSkip
  have h1 : ({ dropWaits s with
      scanned := (dropWaits s).scanned + (dropWaits s).inflight,
      inflight := 0 } : BState) =
      dropWaits { s with scanned := s.scanned + s.inflight, inflight := 0 } := rfl
  rw [h1, getHasMoreState_dropWaits]
  rfl

theorem getBlockStep_nil (s : BState) (h : s.upstream = []) :
    getBlockStep s = ((.done, false), s) := by
  unfold getBlockStep
  rw [h]

theorem getBlockStep_waiting (s : BState) (u : List UpResp)
    (h : s.upstream = .waiting :: u) :
    getBlockStep s = ((.waiting, false), { s with upstream := u }) := by
  unfold getBlockStep
  rw [h]

theorem getBlockStep_yield (s : BState) (last : Bool) (b : Block)
    (u : List UpResp) (h : s.upstream = .yield last b :: u) :
    getBlockStep s = ((if last then .done else .hasMore, true),
      { s with upstream := u, buffer := s.buffer ++ [b] }) := by
  unfold getBlockStep
  rw [h]

theorem getBlockStep_exhausted (s : BState) (u : List UpResp)
    (h : s.upstream = .exhausted :: u) :
    getBlockStep s = ((.done, false), { s with upstream := u }) := by
  unfold getBlockStep
  rw [h]
-- C2 machinery part 2: skipFetch mirrors

theorem reset_removeWaits (nd : PlanNode) (u : List UpResp) (buf : List Block)
    (pos0 : Nat) (dn hm0 : Bool) (infl : Nat) (ups : ExecState)
    (sgs : List Segment) (itr0 : Option (List Doc)) (vs vf : Bool) (sc : Nat) :
    reset nd ⟨removeWaits u, buf, pos0, dn, hm0, infl, ups, sgs, itr0, vs, vf, sc⟩ =
      (reset nd ⟨u, buf, pos0, dn, hm0, infl, ups, sgs, itr0, vs, vf, sc⟩).map dropWaits := by
  have := reset_dropWaits nd ⟨u, buf, pos0, dn, hm0, infl, ups, sgs, itr0, vs, vf, sc⟩
  simpa [dropWaits] using this

theorem skipFetch_dropWaits_inr (nd : PlanNode) (s s1 : BState)
    (h : skipFetch nd s = .ok (.inr s1)) :
    skipFetch nd (dropWaits s) = .ok (.inr (dropWaits s1)) := by
  obtain ⟨up, buf, pos0, dn, hm0, infl, ups, sgs, itr0, vs, vf, sc⟩ := s
  cases buf with
  | cons b bs =>
    unfold skipFetch at h
    rw [if_neg (by simp)] at h
    obtain rfl : s1 = _ := (Sum.inr.inj (Except.ok.inj h)).symm
    rfl
  | nil =>
    cases up with
    | nil => simp [skipFetch, getBlockStep] at h
    | cons r0 u =>
      cases r0 with
      | waiting => simp [skipFetch, getBlockStep] at h
      | exhausted => simp [skipFetch, getBlockStep] at h
      | yield last b =>
        cases last with
        | false =>
          simp only [skipFetch, getBlockStep, List.isEmpty_nil, if_true,
            List.nil_append, Bool.false_eq_true, if_false, eq_self_iff_true] at h
          split at h
          · exact absurd h (by simp)
          · next s2 heq =>
            obtain rfl : s1 = s2 := (Sum.inr.inj (Except.ok.inj h)).symm
            show skipFetch nd (dropWaits _) = _
            simp only [skipFetch, getBlockStep, dropWaits, removeWaits_yield,
              List.isEmpty_nil, if_true, List.nil_append, Bool.false_eq_true,
              if_false, eq_self_iff_true]
            rw [reset_removeWaits, heq]
            rfl
        | true =>
          simp only [skipFetch, getBlockStep, List.isEmpty_nil, if_true,
            List.nil_append, Bool.false_eq_true, if_false, eq_self_iff_true] at h
          split at h
          · exact absurd h (by simp)
          · next s2 heq =>
            obtain rfl : s1 = s2 := (Sum.inr.inj (Except.ok.inj h)).symm
            show skipFetch nd (dropWaits _) = _
            simp only [skipFetch, getBlockStep, dropWaits, removeWaits_yield,
              List.isEmpty_nil, if_true, List.nil_append, Bool.false_eq_true,
              if_false, eq_self_iff_true]
            rw [reset_removeWaits, heq]
            rfl

theorem skipFetch_dropWaits_inl (nd : PlanNode) (s : BState) (r : ExecState × Nat)
    (s1 : BState) (h : skipFetch nd s = .ok (.inl (r, s1))) (hw : r.1 ≠ .waiting) :
    skipFetch nd (dropWaits s) = .ok (.inl (r, dropWaits s1)) := by
  obtain ⟨up, buf, pos0, dn, hm0, infl, ups, sgs, itr0, vs, vf, sc⟩ := s
  cases buf with
  | cons b bs =>
    unfold skipFetch at h
    rw [if_neg (by simp)] at h
    exact absurd h (by simp)
  | nil =>
    cases up with
    | nil =>
      simp only [skipFetch, getBlockStep, List.isEmpty_nil, if_true,
        Bool.false_eq_true, if_false] at h
      have hp := (Sum.inl.inj (Except.ok.inj h)).symm
      injection hp with h1 h2
      subst h1 h2
      rfl
    | cons r0 u =>
      cases r0 with
      | waiting =>
        simp only [skipFetch, getBlockStep, List.isEmpty_nil, if_true] at h
        have hp := (Sum.inl.inj (Except.ok.inj h)).symm
        injection hp with h1 h2
        subst h1
        simp at hw
      | exhausted =>
        simp only [skipFetch, getBlockStep, List.isEmpty_nil, if_true,
          Bool.false_eq_true, if_false] at h
        have hp := (Sum.inl.inj (Except.ok.inj h)).symm
        injection hp with h1 h2
        subst h1 h2
        rfl
      | yield last b =>
        cases last with
        | false =>
          simp only [skipFetch, getBlockStep, List.isEmpty_nil, if_true,
            List.nil_append, Bool.false_eq_true, if_false, eq_self_iff_true] at h
          split at h
          · exact absurd h (by simp)
          · exact absurd h (by simp)
        | true =>
          simp only [skipFetch, getBlockStep, List.isEmpty_nil, if_true,
            List.nil_append, Bool.false_eq_true, if_false, eq_self_iff_true] at h
          split at h
          · exact absurd h (by simp)
          · exact absurd h (by simp)

theorem skipFetch_waiting_inl (nd : PlanNode) (s : BState) (r : ExecState × Nat)
    (s1 : BState) (h : skipFetch nd s = .ok (.inl (r, s1))) (hw : r.1 = .waiting) :
    r = (.waiting, 0) ∧ dropWaits s1 = dropWaits s := by
  obtain ⟨up, buf, pos0, dn, hm0, infl, ups, sgs, itr0, vs, vf, sc⟩ := s
  cases buf with
  | cons b bs =>
    unfold skipFetch at h
    rw [if_neg (by simp)] at h
    exact absurd h (by simp)
  | nil =>
    cases up with
    | nil =>
      simp only [skipFetch, getBlockStep, List.isEmpty_nil, if_true,
        Bool.false_eq_true, if_false] at h
      have hp := (Sum.inl.inj (Except.ok.inj h)).symm
      injection hp with h1 h2
      subst h1
      simp at hw
    | cons r0 u =>
      cases r0 with
      | waiting =>
        simp only [skipFetch, getBlockStep, List.isEmpty_nil, if_true] at h
        have hp := (Sum.inl.inj (Except.ok.inj h)).symm
        injection hp with h1 h2
        subst h1 h2
        exact ⟨rfl, rfl⟩
      | exhausted =>
        simp only [skipFetch, getBlockStep, List.isEmpty_nil, if_true,
          Bool.false_eq_true, if_false] at h
        have hp := (Sum.inl.inj (Except.ok.inj h)).symm
        injection hp with h1 h2
        subst h1
        simp at hw
      | yield last b =>
        cases last with
        | false =>
          simp only [skipFetch, getBlockStep, List.isEmpty_nil, if_true,
            List.nil_append, Bool.false_eq_true, if_false, eq_self_iff_true] at h
          split at h
          · exact absurd h (by simp)
          · exact absurd h (by simp)
        | true =>
          simp only [skipFetch, getBlockStep, List.isEmpty_nil, if_true,
            List.nil_append, Bool.false_eq_true, if_false, eq_self_iff_true] at h
          split at h
          · exact absurd h (by simp)
          · exact absurd h (by simp)

theorem skipBody_mirror_nw (nd : PlanNode) (strat : Strategy) (atMost : Nat)
    (rec rec2 : BState → Except Err SkipRes)
    (hrec : ∀ t r2, rec t = .ok r2 → r2.1.1 ≠ .waiting →
      rec2 (dropWaits t) = .ok (r2.1, dropWaits r2.2))
    (s1 : BState) (res : SkipRes)
    (h : skipBody nd strat atMost rec s1 = .ok res) (hw : res.1.1 ≠ .waiting) :
    skipBody nd strat atMost rec2 (dropWaits s1) = .ok (res.1, dropWaits res.2) := by
  obtain ⟨up, buf, pos0, dn, hm0, infl, ups, sgs, itr0, vs, vf, sc⟩ := s1
  cases buf with
  | nil => simp [skipBody] at h
  | cons b bs =>
    rcases hsk : strat.skipStep sgs itr0 (atMost - infl) with ⟨segs2, itr2, kk⟩
    simp only [skipBody, hsk] at h
    rw [show dropWaits ⟨up, b :: bs, pos0, dn, hm0, infl, ups, sgs, itr0, vs, vf, sc⟩ =
      ⟨removeWaits up, b :: bs, pos0, dn, hm0, infl, ups, sgs, itr0, vs, vf, sc⟩ from rfl]
    simp only [skipBody, hsk]
    by_cases h2 : infl + kk < atMost
    · rw [if_pos h2] at h
      rw [if_pos h2]
      by_cases h3 : pos0 + 1 ≥ b.length
      · rw [if_pos h3] at h
        rw [if_pos h3]
        exact hrec _ _ h hw
      · rw [if_neg h3] at h
        rw [if_neg h3]
        split at h
        · exact absurd h (by simp)
        · next s3 heq =>
          rw [reset_removeWaits, heq]
          simp only [Except.map]
          exact hrec _ _ h hw
    · rw [if_neg h2] at h
      rw [if_neg h2]
      simp only [Except.ok.injEq] at h
      subst h
      rw [← finishSkip_dropWaits]
      rfl

theorem skipBody_mirror_w (nd : PlanNode) (strat : Strategy) (atMost : Nat)
    (rec : BState → Except Err SkipRes)
    (hrecw : ∀ (t : BState) (k2 : Nat) (t2 : BState),
      rec t = .ok ((.waiting, k2), t2) →
      ∀ (g : Nat) (res2 : SkipRes),
      skipSomeLoop nd strat atMost g (dropWaits t2) = .ok res2 →
      ∃ h2, skipSomeLoop nd strat atMost h2 (dropWaits t) = .ok res2)
    (s1 : BState) (k : Nat) (sw : BState)
    (h : skipBody nd strat atMost rec s1 = .ok ((.waiting, k), sw)) :
    ∀ (g : Nat) (res2 : SkipRes),
    skipSomeLoop nd strat atMost g (dropWaits sw) = .ok res2 →
    ∃ h2, skipBody nd strat atMost (skipSomeLoop nd strat atMost h2) (dropWaits s1) =
      .ok res2 := by
  obtain ⟨up, buf, pos0, dn, hm0, infl, ups, sgs, itr0, vs, vf, sc⟩ := s1
  cases buf with
  | nil => simp [skipBody] at h
  | cons b bs =>
    rcases hsk : strat.skipStep sgs itr0 (atMost - infl) with ⟨segs2, itr2, kk⟩
    simp only [skipBody, hsk] at h
    by_cases h2 : infl + kk < atMost
    · rw [if_pos h2] at h
      by_cases h3 : pos0 + 1 ≥ b.length
      · rw [if_pos h3] at h
        intro g res2 hg
        obtain ⟨h2f, hh⟩ := hrecw _ _ _ h g res2 hg
        refine ⟨h2f, ?_⟩
        simp only [skipBody, dropWaits, hsk]
        rw [if_pos h2, if_pos h3]
        exact hh
      · rw [if_neg h3] at h
        split at h
        · exact absurd h (by simp)
        · next s3 heq =>
          intro g res2 hg
          obtain ⟨h2f, hh⟩ := hrecw _ _ _ h g res2 hg
          refine ⟨h2f, ?_⟩
          simp only [skipBody, dropWaits, hsk]
          rw [if_pos h2, if_neg h3]
          rw [reset_removeWaits, heq]
          simp only [Except.map]
          exact hh
    · rw [if_neg h2] at h
      simp only [Except.ok.injEq] at h
      exact absurd (congrArg (fun p => p.1.1) h) (finishSkip_not_waiting _)

theorem skipSomeLoop_dropWaits_nw (nd : PlanNode) (strat : Strategy) (atMost : Nat) :
    ∀ (fuel : Nat) (s : BState) (res : SkipRes),
    skipSomeLoop nd strat atMost fuel s = .ok res → res.1.1 ≠ .waiting →
    skipSomeLoop nd strat atMost fuel (dropWaits s) = .ok (res.1, dropWaits res.2) := by
  intro fuel
  induction fuel with
  | zero => intro s res h hw; simp [skipSomeLoop] at h
  | succ fuel ih =>
    intro s res h hw
    unfold skipSomeLoop at h
    by_cases hin : s.inflight < atMost
    · rw [if_pos hin] at h
      cases hf : skipFetch nd s with
      | error e => rw [hf] at h; exact absurd h (by simp)
      | ok r0 =>
        rw [hf] at h
        cases r0 with
        | inl rr =>
          simp only [Except.ok.injEq] at h
          subst h
          rcases rr with ⟨r, s1⟩
          unfold skipSomeLoop
          rw [if_pos (show (dropWaits s).inflight < atMost from hin)]
          rw [skipFetch_dropWaits_inl nd s r s1 hf hw]
        | inr s1 =>
          simp only at h
          unfold skipSomeLoop
          rw [if_pos (show (dropWaits s).inflight < atMost from hin)]
          rw [skipFetch_dropWaits_inr nd s s1 hf]
          exact skipBody_mirror_nw nd strat atMost _ _
            (fun t r2 ht hwt => ih t r2 ht hwt) s1 res h hw
    · rw [if_neg hin] at h
      simp only [Except.ok.injEq] at h
      subst h
      unfold skipSomeLoop
      rw [if_neg (show ¬ (dropWaits s).inflight < atMost from hin)]
      rw [finishSkip_dropWaits]

theorem skipSomeLoop_dropWaits_w (nd : PlanNode) (strat : Strategy) (atMost : Nat) :
    ∀ (fuel : Nat) (s : BState) (k : Nat) (sw : BState),
    skipSomeLoop nd strat atMost fuel s = .ok ((.waiting, k), sw) →
    ∀ (g : Nat) (res2 : SkipRes),
    skipSomeLoop nd strat atMost g (dropWaits sw) = .ok res2 →
    ∃ h2, skipSomeLoop nd strat atMost h2 (dropWaits s) = .ok res2 := by
  intro fuel
  induction fuel with
  | zero => intro s k sw h; simp [skipSomeLoop] at h
  | succ fuel ih =>
    intro s k sw h g res2 hg
    unfold skipSomeLoop at h
    by_cases hin : s.inflight < atMost
    · rw [if_pos hin] at h
      cases hf : skipFetch nd s with
      | error e => rw [hf] at h; exact absurd h (by simp)
      | ok r0 =>
        rw [hf] at h
        cases r0 with
        | inl rr =>
          simp only [Except.ok.injEq] at h
          have hwl := skipFetch_waiting_inl nd s ((.waiting, k)) sw
            (by rw [hf, h]) rfl
          refine ⟨g, ?_⟩
          rw [← hwl.2]
          exact hg
        | inr s1 =>
          simp only at h
          obtain ⟨h2f, hh⟩ := skipBody_mirror_w nd strat atMost _
            (fun t k2 t2 ht => ih t k2 t2 ht) s1 k sw h g res2 hg
          refine ⟨h2f + 1, ?_⟩
          unfold skipSomeLoop
          rw [if_pos (show (dropWaits s).inflight < atMost from hin)]
          rw [skipFetch_dropWaits_inr nd s s1 hf]
          exact hh
    · rw [if_neg hin] at h
      simp only [Except.ok.injEq] at h
      exact absurd (congrArg (fun p => p.1.1) h) (finishSkip_not_waiting _)

theorem skipInner_budget (ms : List Doc) (l : Nat) :
    (skipInner ms l).2.1 + (skipInner ms l).2.2 = l := by
  induction ms generalizing l with
  | nil => cases l <;> simp [skipInner]
  | cons d ms ih =>
    cases l with
    | zero => simp [skipInner]
    | succ l =>
      simp only [skipInner]
      rcases h : skipInner ms l with ⟨ms2, l2, k⟩
      have := ih l
      rw [h] at this
      simp only at this ⊢
      omega

theorem blockSkip_le (segs : List Segment) (itr : Option (List Doc)) (l : Nat) :
    (blockSkip segs itr l).2.2 ≤ l := by
  induction segs generalizing itr l with
  | nil => simp [blockSkip]
  | cons seg rest ih =>
    simp only [blockSkip]
    rcases h : skipInner (itr.getD seg) l with ⟨ms2, l2, k⟩
    have hb := skipInner_budget (itr.getD seg) l
    rw [h] at hb
    simp only at hb
    by_cases hz : l2 = 0
    · simp only [hz, if_pos]
      omega
    · simp only [hz, if_neg, not_false_iff]
      rcases h2 : blockSkip rest none l2 with ⟨segs2, itr2, k2⟩
      have := ih none l2
      rw [h2] at this
      simp only at this ⊢
      omega

theorem getHasMoreState_inflight (s : BState) :
    (getHasMoreState s).2.inflight = s.inflight := by
  unfold getHasMoreState
  split
  · rfl
  · split <;> rfl

theorem finishSkip_inflight (s : BState) : (finishSkip s).2.inflight = 0 := by
  unfold finishSkip
  rcases hg : getHasMoreState { s with scanned := s.scanned + s.inflight, inflight := 0 }
    with ⟨st, s1⟩
  have := getHasMoreState_inflight { s with scanned := s.scanned + s.inflight, inflight := 0 }
  rw [hg] at this
  simpa using this

theorem skipSomeLoop_report (nd : PlanNode) (strat : Strategy) (atMost : Nat)
    (hskLE : ∀ segs itr l, (strat.skipStep segs itr l).2.2 ≤ l) :
    ∀ (fuel : Nat) (s : BState) (res : SkipRes),
    skipSomeLoop nd strat atMost fuel s = .ok res → s.inflight ≤ atMost →
    res.1.1 ≠ .waiting →
    res.2.inflight = 0 ∧ (res.1.1 = .done ∨ res.1.2 = atMost) := by
  intro fuel
  induction fuel with
  | zero => intro s res h _ _; simp [skipSomeLoop] at h
  | succ fuel ih =>
    intro s res h hle hw
    unfold skipSomeLoop at h
    by_cases hin : s.inflight < atMost
    · rw [if_pos hin] at h
      cases hf : skipFetch nd s with
      | error e => rw [hf] at h; exact absurd h (by simp)
      | ok r0 =>
        rw [hf] at h
        rcases skipFetch_cases nd s r0 hf with
          ⟨s1, rfl, hd, hi⟩ | ⟨s1, rfl, hd, hi⟩ | ⟨s1, rfl, hd, hi⟩
        · simp only at h
          unfold skipBody at h
          split at h
          · exact absurd h (by simp)
          · next cur restBuf hbuf =>
            rcases hsk : strat.skipStep s1.segsLeft s1.itr (atMost - s1.inflight) with
              ⟨segs2, itr2, kk⟩
            have hkk : kk ≤ atMost - s1.inflight := by
              have := hskLE s1.segsLeft s1.itr (atMost - s1.inflight)
              rw [hsk] at this
              exact this
            simp only [hsk] at h
            by_cases h2 : s1.inflight + kk < atMost
            · rw [if_pos h2] at h
              split at h
              · exact ih _ _ h (by simpa using Nat.le_of_lt h2) hw
              · split at h
                · exact absurd h (by simp)
                · next s3 hr =>
                  have hfr := (reset_frame nd _ s3 hr).2.2.2.2.1
                  exact ih _ _ h (by rw [hfr]; simpa using Nat.le_of_lt h2) hw
            · rw [if_neg h2] at h
              simp only [Except.ok.injEq] at h
              subst h
              refine ⟨finishSkip_inflight _, Or.inr ?_⟩
              rw [finishSkip_fst]
              simp only
              rw [hi] at *
              omega
        · simp only [Except.ok.injEq] at h
          subst h
          simp at hw
        · simp only [Except.ok.injEq] at h
          subst h
          exact ⟨hi, Or.inl rfl⟩
    · rw [if_neg hin] at h
      simp only [Except.ok.injEq] at h
      subst h
      refine ⟨finishSkip_inflight _, Or.inr ?_⟩
      rw [finishSkip_fst]
      simp only
      omega

theorem skipSomeF_dropWaits_nw (nd : PlanNode) (strat : Strategy)
    (fuel atMost : Nat) (s : BState) (res : SkipRes)
    (h : skipSomeF nd strat fuel atMost s = .ok res) (hw : res.1.1 ≠ .waiting) :
    skipSomeF nd strat fuel atMost (dropWaits s) = .ok (res.1, dropWaits res.2) := by
  unfold skipSomeF at h ⊢
  by_cases hd : s.done
  · rw [if_pos hd] at h
    rw [if_pos (show (dropWaits s).done = true from hd)]
    simp only [Except.ok.injEq] at h
    subst h
    rfl
  · rw [if_neg hd] at h
    rw [if_neg (show ¬ (dropWaits s).done = true from hd)]
    exact skipSomeLoop_dropWaits_nw nd strat atMost fuel s res h hw

theorem skipSomeF_dropWaits_w (nd : PlanNode) (strat : Strategy)
    (fuel atMost : Nat) (s : BState) (k : Nat) (sw : BState)
    (h : skipSomeF nd strat fuel atMost s = .ok ((.waiting, k), sw)) :
    sw.done = false ∧ sw.inflight < atMost ∧
    ∀ (g : Nat) (res2 : SkipRes),
    skipSomeF nd strat g atMost (dropWaits sw) = .ok res2 →
    ∃ h2, skipSomeF nd strat h2 atMost (dropWaits s) = .ok res2 := by
  unfold skipSomeF at h
  by_cases hd : s.done
  · rw [if_pos hd] at h
    simp at h
  · rw [if_neg hd] at h
    have hwc := skipSomeLoop_waiting nd strat atMost fuel s k sw h
    have hswd : sw.done = false := by rw [hwc.2.1]; simpa using hd
    refine ⟨hswd, hwc.2.2, ?_⟩
    intro g res2 hg
    unfold skipSomeF at hg
    rw [if_neg (show ¬ (dropWaits sw).done = true from by
      show ¬ sw.done = true
      simp [hswd])] at hg
    obtain ⟨h2, hh⟩ := skipSomeLoop_dropWaits_w nd strat atMost fuel s k sw h g res2 hg
    refine ⟨h2, ?_⟩
    unfold skipSomeF
    rw [if_neg (show ¬ (dropWaits s).done = true from hd)]
    exact hh

theorem skipSomeF_report (nd : PlanNode) (strat : Strategy) (atMost : Nat)
    (hskLE : ∀ segs itr l, (strat.skipStep segs itr l).2.2 ≤ l)
    (fuel : Nat) (s : BState) (res : SkipRes)
    (h : skipSomeF nd strat fuel atMost s = .ok res) (hle : s.inflight ≤ atMost)
    (hw : res.1.1 ≠ .waiting) :
    res.2.inflight = 0 ∧ (res.1.1 = .done ∨ res.1.2 = atMost) := by
  unfold skipSomeF at h
  by_cases hd : s.done
  · rw [if_pos hd] at h
    simp only [Except.ok.injEq] at h
    subst h
    exact ⟨rfl, Or.inl rfl⟩
  · rw [if_neg hd] at h
    exact skipSomeLoop_report nd strat atMost hskLE fuel s res h hle hw

theorem skipRetry_full (nd : PlanNode) (strat : Strategy) (atMost : Nat)
    (hskLE : ∀ segs itr l, (strat.skipStep segs itr l).2.2 ≤ l) :
    ∀ (fuel : Nat) (s : BState) (res : SkipRes),
    skipRetry nd strat atMost fuel s = .ok res → s.inflight ≤ atMost →
    res.1.1 ≠ .waiting ∧
    res.2.inflight = 0 ∧ (res.1.1 = .done ∨ res.1.2 = atMost) ∧
    ∃ g, skipSomeF nd strat g atMost (dropWaits s) = .ok (res.1, dropWaits res.2) := by
  intro fuel
  induction fuel with
  | zero => intro s res h _; simp [skipRetry] at h
  | succ fuel ih =>
    intro s res h hle
    unfold skipRetry at h
    cases hs : skipSomeF nd strat (fuel+1) atMost s with
    | error e => rw [hs] at h; exact absurd h (by simp)
    | ok rr =>
      rw [hs] at h
      rcases rr with ⟨⟨st, k⟩, s1⟩
      cases st with
      | waiting =>
        simp only at h
        have hwl := skipSomeF_dropWaits_w nd strat (fuel+1) atMost s k s1 hs
        have := ih s1 res h (Nat.le_of_lt hwl.2.1)
        obtain ⟨g, hg⟩ := this.2.2.2
        obtain ⟨h2, hh⟩ := hwl.2.2 g _ hg
        exact ⟨this.1, this.2.1, this.2.2.1, h2, hh⟩
      | hasMore =>
        simp only [Except.ok.injEq] at h
        subst h
        have hrep := skipSomeF_report nd strat atMost hskLE (fuel+1) s _ hs hle
          (by simp)
        exact ⟨by simp, hrep.1, hrep.2, ⟨fuel+1,
          skipSomeF_dropWaits_nw nd strat (fuel+1) atMost s _ hs (by simp)⟩⟩
      | done =>
        simp only [Except.ok.injEq] at h
        subst h
        have hrep := skipSomeF_report nd strat atMost hskLE (fuel+1) s _ hs hle
          (by simp)
        exact ⟨by simp, hrep.1, hrep.2, ⟨fuel+1,
          skipSomeF_dropWaits_nw nd strat (fuel+1) atMost s _ hs (by simp)⟩⟩

/-- **C2.** A `skipSome(atMost)` run retried across `WAITING` suspensions with
identical arguments (each `WAITING` call reporting 0) neither loses nor
double-counts the in-flight skip counter: the finally reported result is the
one a single uninterrupted `skipSome(atMost)` call — the same call over the
upstream with the `WAITING` suspensions erased — would have returned; the
count is reported only once the counter reaches `atMost` or the block is done
(upstream exhausted), at which point `_inflight` is reset to zero; and every
intermediate `WAITING` return reports 0. Hypothesis `hskLE` states that the
strategy's `skip` never skips more than asked (true of `blockSkip`, the model
of both strategies). -/
theorem C2_skip_accumulation (nd : PlanNode) (strat : Strategy) (atMost : Nat)
    (hskLE : ∀ segs itr l, (strat.skipStep segs itr l).2.2 ≤ l)
    (fuel : Nat) (s : BState) (res : SkipRes)
    (hin : s.inflight ≤ atMost)
    (hrun : skipRetry nd strat atMost fuel s = .ok res) :
    res.1.1 ≠ .waiting ∧
    (∃ g, skipSomeF nd strat g atMost (dropWaits s) = .ok (res.1, dropWaits res.2)) ∧
    res.2.inflight = 0 ∧
    (res.1.1 = .done ∨ res.1.2 = atMost) ∧
    (∀ (f k : Nat) (t t2 : BState),
      skipSomeF nd strat f atMost t = .ok ((.waiting, k), t2) → k = 0) := by
  have h := skipRetry_full nd strat atMost hskLE fuel s res hrun hin
  refine ⟨h.1, h.2.2.2, h.2.1, h.2.2.1, ?_⟩
  intro f k t t2 hw
  unfold skipSomeF at hw
  by_cases ht : t.done
  · rw [if_pos ht] at hw
    simp at hw
  · rw [if_neg ht] at hw
    exact (skipSomeLoop_waiting nd strat atMost f t k t2 hw).1

/-- Result of the retried C2 run on `state8` (one match, upstream suspends
once): `(DONE, 1)` with the counter zeroed. -/
def resC2 : SkipRes :=
  ((.done, 1), ⟨[], [], 0, true, true, 0, .done, [], none, false, false, 1⟩)

theorem C2_witness :
    state8.inflight ≤ 2 ∧
    (resC2.1.1 ≠ .waiting ∧
     (∃ g, skipSomeF ndFF scoredStrategy g 2 (dropWaits state8) =
        .ok (resC2.1, dropWaits resC2.2)) ∧
     resC2.2.inflight = 0 ∧
     (resC2.1.1 = .done ∨ resC2.1.2 = 2) ∧
     (∀ (f k : Nat) (t t2 : BState),
       skipSomeF ndFF scoredStrategy f 2 t = .ok ((.waiting, k), t2) → k = 0)) :=
  ⟨by decide, C2_skip_accumulation ndFF scoredStrategy 2
     (fun segs itr l => blockSkip_le segs itr l) 9 state8 resC2 (by decide) rfl⟩

/-! ### Claim C3 machinery: match counting over a good snapshot -/

/-! ### Claim C3 machinery: counting matches -/

/-- The matches still ahead of the read cursor `(segsLeft, itr)`: the head
segment's live iterator followed by the untouched tail segments; an empty
segment suffix scans nothing. -/
def cursorRest : List Segment → Option (List Doc) → List Doc
  | [], _ => []
  | seg :: rest, itr => itr.getD seg ++ rest.flatten

/-- Total number of matches the compiled filter yields for one input row. -/
def rowPot (r : Row) : Nat := (r.segs.map List.length).sum

/-- Total number of matches of one upstream block. -/
def blockPot (b : Block) : Nat := (b.map rowPot).sum

/-- Matches still to come from one upstream response. -/
def respPot : UpResp → Nat
  | .yield _ b => blockPot b
  | _ => 0

/-- Matches still to come from the upstream stream. -/
def upPot (u : List UpResp) : Nat := (u.map respPot).sum

/-- Matches of the input rows buffered behind the current row. -/
def restPot (s : BState) : Nat :=
  match s.buffer with
  | [] => 0
  | b :: bs => blockPot (b.drop (s.pos + 1)) + (bs.map blockPot).sum

/-- Matches the block still has to process: current cursor, buffered rows
behind the current one, upstream. -/
def statePot (s : BState) : Nat :=
  (cursorRest s.segsLeft s.itr).length + restPot s + upPot s.upstream

/-- Every match of the segment reads back successfully (primary-key lookup
and storage join both succeed). -/
def goodSeg (sg : Segment) : Bool := sg.all docReadOk

/-- Every match the row's compiled filter yields reads back successfully. -/
def goodRow (r : Row) : Bool := r.segs.all goodSeg

def goodBlock (b : Block) : Bool := b.all goodRow

/-- A well-formed deterministic snapshot upstream: blocks are nonempty and
all-good, and nothing follows a terminal response (`exhausted` or a final
block). -/
def wfUp : List UpResp → Bool
  | [] => true
  | .waiting :: rest => wfUp rest
  | .exhausted :: rest => rest.isEmpty
  | .yield last b :: rest =>
    !b.isEmpty && goodBlock b && (if last then rest.isEmpty else wfUp rest)

theorem cursorRest_none (segs : List Segment) :
    cursorRest segs none = segs.flatten := by
  cases segs <;> simp [cursorRest]

theorem rowPot_flatten (r : Row) : (r.segs.flatten).length = rowPot r := by
  simp [rowPot, List.length_flatten]

theorem goodSeg_flatten (r : Row) (h : goodRow r = true) :
    goodSeg (r.segs.flatten) = true := by
  rw [goodSeg, List.all_eq_true]
  intro d hd
  rcases List.mem_flatten.mp hd with ⟨sg, hsg, hdm⟩
  have := (List.all_eq_true.mp h) sg hsg
  exact (List.all_eq_true.mp this) d hdm

theorem goodSeg_sub (g g2 : List Doc) (hsub : g2 ⊆ g) (h : goodSeg g = true) :
    goodSeg g2 = true := by
  rw [goodSeg, List.all_eq_true]
  intro d hd
  exact (List.all_eq_true.mp h) d (hsub hd)

/-- `skipInner` counts `min limit (remaining matches)` and drops them. -/
theorem skipInner_eq (ms : List Doc) : ∀ l : Nat,
    skipInner ms l =
      (ms.drop (min l ms.length), l - min l ms.length, min l ms.length) := by
  induction ms with
  | nil =>
    intro l
    cases l <;> simp [skipInner]
  | cons d ms ih =>
    intro l
    cases l with
    | zero => simp [skipInner]
    | succ l =>
      simp only [skipInner, ih l, List.length_cons, Nat.succ_min_succ,
        List.drop_succ_cons, Nat.succ_sub_succ]

/-- On an all-good iterator, `IResearchViewBlock::next`'s inner loop accepts
exactly `min limit (remaining matches)` matches, in order. -/
theorem scoredInner_good (ms : List Doc) : ∀ l : Nat, ms.all docReadOk = true →
    scoredInner ms l =
      (ms.drop (min l ms.length), l - min l ms.length,
       ms.take (min l ms.length)) := by
  induction ms with
  | nil =>
    intro l _
    cases l <;> simp [scoredInner]
  | cons d ms ih =>
    intro l hg
    rw [List.all_cons, Bool.and_eq_true] at hg
    cases l with
    | zero => simp [scoredInner]
    | succ l =>
      simp only [scoredInner, hg.1, if_true, ih l hg.2, List.length_cons,
        Nat.succ_min_succ, List.drop_succ_cons, Nat.succ_sub_succ,
        List.take_succ_cons]

/-- `IResearchViewBlock::skip`'s segment loop skips exactly
`min limit (matches ahead of the cursor)` and leaves the cursor right after
them. -/
theorem blockSkip_eq (segs : List Segment) : ∀ (itr : Option (List Doc)) (l : Nat),
    (blockSkip segs itr l).2.2 = min l (cursorRest segs itr).length ∧
    cursorRest (blockSkip segs itr l).1 (blockSkip segs itr l).2.1 =
      (cursorRest segs itr).drop (min l (cursorRest segs itr).length) := by
  induction segs with
  | nil =>
    intro itr l
    simp [blockSkip, cursorRest]
  | cons seg rest ih =>
    intro itr l
    by_cases hle : l ≤ (itr.getD seg).length
    · have hz : l - min l (itr.getD seg).length = 0 := by omega
      have hm : min l (itr.getD seg).length = l := Nat.min_eq_left hle
      have hmin : min l (cursorRest (seg :: rest) itr).length = l := by
        simp only [cursorRest, List.length_append]
        omega
      simp only [blockSkip, skipInner_eq, hz]
      rw [if_pos trivial]
      simp only [hmin]
      simp only [hm, cursorRest, Option.getD_some]
      refine ⟨by trivial, ?_⟩
      rw [List.drop_append_eq_append_drop, Nat.sub_eq_zero_of_le hle, List.drop_zero]
    · have hz : ¬ (l - min l (itr.getD seg).length = 0) := by omega
      have hm : min l (itr.getD seg).length = (itr.getD seg).length :=
        Nat.min_eq_right (by omega)
      simp only [blockSkip, skipInner_eq, hz]
      rw [if_neg id]
      rcases hbs : blockSkip rest none (l - min l (itr.getD seg).length) with
        ⟨segs2, itr2, k2⟩
      have hrec := ih none (l - min l (itr.getD seg).length)
      rw [hbs] at hrec
      simp only [cursorRest_none] at hrec
      simp only [hbs]
      constructor
      · have h1 := hrec.1
        simp only [cursorRest, List.length_append]
        omega
      · have hcr : cursorRest (seg :: rest) itr = itr.getD seg ++ rest.flatten := rfl
        rw [hrec.2, hcr]
        have hn : min l ((itr.getD seg) ++ rest.flatten).length =
            (itr.getD seg).length +
            min (l - min l (itr.getD seg).length) rest.flatten.length := by
          simp only [List.length_append]
          omega
        rw [hn, List.drop_append_eq_append_drop,
          List.drop_eq_nil_of_le (Nat.le_add_right _ _), List.nil_append]
        congr 1
        omega

/-- On an all-good cursor, `IResearchViewBlock::next`'s segment loop produces
exactly the first `min limit (matches ahead)` matches, returns the unused
budget, reports "has more" iff the budget was fully used, and leaves the
cursor right after the produced matches. -/
theorem scoredNext_good (segs : List Segment) : ∀ (itr : Option (List Doc)) (l : Nat),
    goodSeg (cursorRest segs itr) = true →
    (scoredNext segs itr l).2.2.1 = l - min l (cursorRest segs itr).length ∧
    (scoredNext segs itr l).2.2.2.1 =
      (cursorRest segs itr).take (min l (cursorRest segs itr).length) ∧
    (scoredNext segs itr l).2.2.2.2 =
      (l - min l (cursorRest segs itr).length == 0) ∧
    cursorRest (scoredNext segs itr l).1 (scoredNext segs itr l).2.1 =
      (cursorRest segs itr).drop (min l (cursorRest segs itr).length) := by
  induction segs with
  | nil =>
    intro itr l _
    simp [scoredNext, cursorRest]
  | cons seg rest ih =>
    intro itr l hg
    have hga : (itr.getD seg).all docReadOk = true ∧ goodSeg rest.flatten = true := by
      rw [cursorRest] at hg
      rw [goodSeg, List.all_append, Bool.and_eq_true] at hg
      exact ⟨hg.1, hg.2⟩
    by_cases hle : l ≤ (itr.getD seg).length
    · have hz : l - min l (itr.getD seg).length = 0 := by omega
      have hm : min l (itr.getD seg).length = l := Nat.min_eq_left hle
      have hmin : min l (cursorRest (seg :: rest) itr).length = l := by
        simp only [cursorRest, List.length_append]
        omega
      simp only [scoredNext, scoredInner_good _ _ hga.1, hz]
      rw [if_pos trivial]
      simp only [hmin]
      simp only [hm, cursorRest, Option.getD_some]
      refine ⟨by simp, ?_, by simp, ?_⟩
      · rw [List.take_append_eq_append_take, Nat.sub_eq_zero_of_le hle,
          List.take_zero, List.append_nil]
      · rw [List.drop_append_eq_append_drop, Nat.sub_eq_zero_of_le hle,
          List.drop_zero]
    · have hz : ¬ (l - min l (itr.getD seg).length = 0) := by omega
      have hm : min l (itr.getD seg).length = (itr.getD seg).length :=
        Nat.min_eq_right (by omega)
      simp only [scoredNext, scoredInner_good _ _ hga.1, hz]
      rw [if_neg id]
      rcases hsn : scoredNext rest none (l - min l (itr.getD seg).length) with
        ⟨segs2, itr2, l2, out2, b2⟩
      have hrec := ih none (l - min l (itr.getD seg).length) (by
        rw [cursorRest_none]; exact hga.2)
      rw [hsn] at hrec
      simp only [cursorRest_none] at hrec
      simp only [hsn]
      have hcr : cursorRest (seg :: rest) itr = itr.getD seg ++ rest.flatten := rfl
      have hkey : min l (cursorRest (seg :: rest) itr).length =
          (itr.getD seg).length +
          min (l - min l (itr.getD seg).length) rest.flatten.length := by
        rw [hcr]
        simp only [List.length_append]
        omega
      rw [hkey]
      refine ⟨?_, ?_, ?_, ?_⟩
      · have h1 := hrec.1
        omega
      · rw [hrec.2.1, hcr, List.take_append_eq_append_take,
          List.take_of_length_le (Nat.le_add_right _ _)]
        have h2 : (itr.getD seg).length +
            min (l - min l (itr.getD seg).length) rest.flatten.length -
            (itr.getD seg).length =
            min (l - min l (itr.getD seg).length) rest.flatten.length := by omega
        rw [h2, hm, List.take_length]
      · rw [hrec.2.2.1]
        have h3 : l - ((itr.getD seg).length +
            min (l - min l (itr.getD seg).length) rest.flatten.length) =
            l - min l (itr.getD seg).length -
            min (l - min l (itr.getD seg).length) rest.flatten.length := by omega
        rw [h3]
      · rw [hrec.2.2.2, hcr, List.drop_append_eq_append_drop,
          List.drop_eq_nil_of_le (Nat.le_add_right _ _), List.nil_append]
        congr 1
        omega

theorem upPot_cons (r : UpResp) (u : List UpResp) :
    upPot (r :: u) = respPot r + upPot u := by
  simp [upPot]

theorem restPot_nil (s : BState) (hb : s.buffer = []) : restPot s = 0 := by
  unfold restPot
  rw [hb]

theorem restPot_cons (s : BState) (b : Block) (hb : s.buffer = [b]) :
    restPot s = blockPot (b.drop (s.pos + 1)) := by
  unfold restPot
  rw [hb]
  simp

theorem blockPot_cons (r : Row) (bt : List Row) :
    blockPot (r :: bt) = rowPot r + blockPot bt := by
  simp [blockPot]

/-- Core reachable-state invariant of a run over a well-formed all-good
snapshot, shared by the `getSome` and `skipSome` drivers. -/
structure InvC (s : BState) : Prop where
  up : wfUp s.upstream = true
  usDone : s.upstreamState = .done → s.upstream = []
  buf : s.buffer = [] ∨ ∃ b, s.buffer = [b] ∧ goodBlock b = true ∧ s.pos < b.length
  bufCur : s.buffer = [] → cursorRest s.segsLeft s.itr = []
  curGood : goodSeg (cursorRest s.segsLeft s.itr) = true
  potDone : s.done = true → statePot s = 0

/-- `getSome`-run invariant: additionally, a false `_hasMore` means the
current row's cursor is exhausted, and after the buffer is popped `_hasMore`
has been set back to `true`. -/
structure InvG (s : BState) : Prop where
  core : InvC s
  hmCur : s.hasMore = false → cursorRest s.segsLeft s.itr = []
  bufHm : s.buffer = [] → s.hasMore = true

theorem statePot_zero (s1 : BState) (hb : s1.buffer = [])
    (hc : cursorRest s1.segsLeft s1.itr = []) (hup : upPot s1.upstream = 0) :
    statePot s1 = 0 := by
  unfold statePot
  rw [hc, restPot_nil s1 hb, hup]
  rfl

theorem reset_cursor (nd : PlanNode) (x y : BState) (h : reset nd x = .ok y) :
    ∃ r, currentRow x = some r ∧ y.segsLeft = r.segs ∧ y.itr = none := by
  rcases reset_ok_eq nd x y h with ⟨r, hr, ⟨_, _, _, rfl⟩ | ⟨_, rfl⟩⟩ <;>
    exact ⟨r, hr, rfl, rfl⟩

theorem currentRow_zero (s : BState) (r0 : Row) (bt : List Row)
    (hb : s.buffer = [r0 :: bt]) (hp : s.pos = 0) :
    currentRow s = some r0 := by
  unfold currentRow
  rw [hb, hp]
  simp

/-- Bookkeeping of the buffer-fill step of `getSome` over a good snapshot:
`WAITING` and the unchanged-buffer continuation preserve the potential and
the invariant, an exhausted upstream certifies the potential is already zero,
and a fetched block turns upstream potential into buffered potential. -/
theorem fetchIfEmpty_pot (nd : PlanNode) (s : BState) (res : GetRes ⊕ BState)
    (hI : InvG s) (h : fetchIfEmpty nd s = .ok res) :
    (∃ s1, res = .inl ((.waiting, none), s1) ∧ InvG s1 ∧
      statePot s1 = statePot s ∧ s1.done = s.done) ∨
    (∃ s1, res = .inl ((.done, none), s1) ∧ statePot s = 0 ∧ statePot s1 = 0) ∨
    (res = .inr s ∧ s.buffer ≠ []) ∨
    (∃ s1, res = .inr s1 ∧ InvG s1 ∧ statePot s1 = statePot s ∧
      s1.done = s.done ∧ s1.hasMore = true ∧ s1.buffer ≠ []) := by
  unfold fetchIfEmpty at h
  by_cases hb : s.buffer.isEmpty
  · have hbe : s.buffer = [] := by simpa using hb
    have hcur : cursorRest s.segsLeft s.itr = [] := hI.core.bufCur hbe
    have hwf := hI.core.up
    rw [if_pos hb] at h
    cases hu : s.upstream with
    | nil =>
      rw [getBlockStep_nil s hu] at h
      simp only [Bool.false_eq_true, if_neg, not_false_iff, Except.ok.injEq] at h
      refine Or.inr (Or.inl ⟨_, h.symm, ?_, ?_⟩)
      · unfold statePot
        rw [hcur, restPot_nil s hbe, hu]
        simp [upPot]
      · exact statePot_zero _ hbe hcur (by show upPot s.upstream = 0; rw [hu]; rfl)
    | cons r0 rest =>
      cases r0 with
      | waiting =>
        rw [getBlockStep_waiting s rest hu] at h
        simp only [Except.ok.injEq] at h
        have hpot : statePot { s with upstream := rest } = statePot s := by
          unfold statePot
          rw [hu, upPot_cons]
          have h1 : restPot { s with upstream := rest } = restPot s := by
            unfold restPot
            rfl
          rw [h1]
          simp [respPot]
        refine Or.inl ⟨_, h.symm, ⟨⟨?_, ?_, ?_, ?_, ?_, ?_⟩, ?_, ?_⟩, hpot, rfl⟩
        · rw [hu] at hwf
          exact hwf
        · intro hus
          exact absurd (hI.core.usDone hus) (by rw [hu]; simp)
        · exact Or.inl hbe
        · intro _; exact hcur
        · exact hI.core.curGood
        · intro hd
          rw [hpot]
          exact hI.core.potDone hd
        · intro _; exact hcur
        · intro _; exact hI.bufHm hbe
      | yield last b =>
        have hmTrue : s.hasMore = true := hI.bufHm hbe
        rw [hu, wfUp] at hwf
        simp only [Bool.and_eq_true, Bool.not_eq_true'] at hwf
        cases b with
        | nil => simp at hwf
        | cons row0 bt =>
        have hgb : goodBlock (row0 :: bt) = true := hwf.1.2
        have hgr : goodRow row0 = true := by
          rw [goodBlock, List.all_cons, Bool.and_eq_true] at hgb
          exact hgb.1
        have hbpot : blockPot (row0 :: bt) = rowPot row0 + blockPot bt :=
          blockPot_cons row0 bt
        have hpotS : statePot s = blockPot (row0 :: bt) + upPot rest := by
          unfold statePot
          rw [hcur, restPot_nil s hbe, hu, upPot_cons]
          simp [respPot]
        rw [getBlockStep_yield s last (row0 :: bt) rest hu] at h
        have hrest : (if last then rest.isEmpty else wfUp rest) = true := hwf.2
        cases last with
        | false =>
          simp only [Bool.false_eq_true, if_false, eq_self_iff_true, if_true] at h
          split at h
          · exact absurd h (by simp)
          · next s2 heq =>
            simp only [Except.ok.injEq] at h
            have hfr := reset_frame nd _ s2 heq
            have hb2 : s2.buffer = [row0 :: bt] := by
              rw [hfr.2.1]
              show s.buffer ++ [row0 :: bt] = [row0 :: bt]
              rw [hbe]
              exact List.nil_append _
            have hp2 : s2.pos = 0 := hfr.2.2.1.trans rfl
            have hup2 : s2.upstream = rest := hfr.2.2.2.1.trans rfl
            have hus2 : s2.upstreamState = .hasMore := hfr.2.2.2.2.2.2.1.trans rfl
            have hhm2 : s2.hasMore = s.hasMore := hfr.2.2.2.2.2.1.trans rfl
            have hd2 : s2.done = s.done := hfr.1.trans rfl
            obtain ⟨r, hrow, hsegs, hitr⟩ := reset_cursor nd _ s2 heq
            have hrow2 : r = row0 := by
              rw [currentRow_zero _ row0 bt (by
                show s.buffer ++ [row0 :: bt] = [row0 :: bt]
                rw [hbe]
                exact List.nil_append _) rfl] at hrow
              exact (Option.some.inj hrow).symm
            rw [hrow2] at hsegs
            have hcur2 : cursorRest s2.segsLeft s2.itr = row0.segs.flatten := by
              rw [hsegs, hitr, cursorRest_none]
            have hpot2 : statePot s2 = statePot s := by
              have hL : statePot s2 = rowPot row0 + blockPot bt + upPot rest := by
                unfold statePot
                rw [hcur2, rowPot_flatten, restPot_cons s2 _ hb2, hp2, hup2,
                  List.drop_succ_cons, List.drop_zero]
              rw [hL, hpotS, hbpot]
            refine Or.inr (Or.inr (Or.inr ⟨s2, h.symm, ⟨⟨?_, ?_, ?_, ?_, ?_, ?_⟩,
              ?_, ?_⟩, hpot2, hd2, by rw [hhm2]; exact hmTrue,
              by rw [hb2]; simp⟩))
            · rw [hup2]
              exact hrest
            · intro hus
              rw [hus2] at hus
              cases hus
            · exact Or.inr ⟨row0 :: bt, hb2, hgb, by rw [hp2]; simp⟩
            · intro hc
              rw [hb2] at hc
              cases hc
            · rw [hcur2]
              exact goodSeg_flatten _ hgr
            · intro hd
              rw [hpot2]
              rw [hd2] at hd
              exact hI.core.potDone hd
            · intro hhm
              rw [hhm2, hmTrue] at hhm
              cases hhm
            · intro hc
              rw [hb2] at hc
              cases hc
        | true =>
          simp only [eq_self_iff_true, if_true] at h hrest
          have hrnil : rest = [] := by simpa using hrest
          split at h
          · exact absurd h (by simp)
          · next s2 heq =>
            simp only [Except.ok.injEq] at h
            have hfr := reset_frame nd _ s2 heq
            have hb2 : s2.buffer = [row0 :: bt] := by
              rw [hfr.2.1]
              show s.buffer ++ [row0 :: bt] = [row0 :: bt]
              rw [hbe]
              exact List.nil_append _
            have hp2 : s2.pos = 0 := hfr.2.2.1.trans rfl
            have hup2 : s2.upstream = rest := hfr.2.2.2.1.trans rfl
            have hus2 : s2.upstreamState = .done := hfr.2.2.2.2.2.2.1.trans rfl
            have hhm2 : s2.hasMore = s.hasMore := hfr.2.2.2.2.2.1.trans rfl
            have hd2 : s2.done = s.done := hfr.1.trans rfl
            obtain ⟨r, hrow, hsegs, hitr⟩ := reset_cursor nd _ s2 heq
            have hrow2 : r = row0 := by
              rw [currentRow_zero _ row0 bt (by
                show s.buffer ++ [row0 :: bt] = [row0 :: bt]
                rw [hbe]
                exact List.nil_append _) rfl] at hrow
              exact (Option.some.inj hrow).symm
            rw [hrow2] at hsegs
            have hcur2 : cursorRest s2.segsLeft s2.itr = row0.segs.flatten := by
              rw [hsegs, hitr, cursorRest_none]
            have hpot2 : statePot s2 = statePot s := by
              have hL : statePot s2 = rowPot row0 + blockPot bt + upPot rest := by
                unfold statePot
                rw [hcur2, rowPot_flatten, restPot_cons s2 _ hb2, hp2, hup2,
                  List.drop_succ_cons, List.drop_zero]
              rw [hL, hpotS, hbpot]
            refine Or.inr (Or.inr (Or.inr ⟨s2, h.symm, ⟨⟨?_, ?_, ?_, ?_, ?_, ?_⟩,
              ?_, ?_⟩, hpot2, hd2, by rw [hhm2]; exact hmTrue,
              by rw [hb2]; simp⟩))
            · rw [hup2, hrnil]
              rfl
            · intro _
              rw [hup2, hrnil]
            · exact Or.inr ⟨row0 :: bt, hb2, hgb, by rw [hp2]; simp⟩
            · intro hc
              rw [hb2] at hc
              cases hc
            · rw [hcur2]
              exact goodSeg_flatten _ hgr
            · intro hd
              rw [hpot2]
              rw [hd2] at hd
              exact hI.core.potDone hd
            · intro hhm
              rw [hhm2, hmTrue] at hhm
              cases hhm
            · intro hc
              rw [hb2] at hc
              cases hc
      | exhausted =>
        rw [getBlockStep_exhausted s rest hu] at h
        simp only [Bool.false_eq_true, if_neg, not_false_iff, Except.ok.injEq] at h
        have hrest : rest = [] := by
          rw [hu, wfUp] at hwf
          simpa using hwf
        refine Or.inr (Or.inl ⟨_, h.symm, ?_, ?_⟩)
        · unfold statePot
          rw [hcur, restPot_nil s hbe, hu, hrest]
          simp [upPot, respPot]
        · exact statePot_zero _ hbe hcur (by show upPot rest = 0; rw [hrest]; rfl)
  · rw [if_neg hb] at h
    simp only [Except.ok.injEq] at h
    exact Or.inr (Or.inr (Or.inl ⟨h.symm, by simpa using hb⟩))

theorem currentRow_cons (s : BState) (b : Block) (hb : s.buffer = [b])
    (hp : s.pos < b.length) : currentRow s = some b[s.pos] := by
  unfold currentRow
  rw [hb]
  simp [List.getElem?_eq_getElem hp]

theorem currentRow_some (s : BState) (b : Block) (r : Row) (hb : s.buffer = [b])
    (hr : currentRow s = some r) : b[s.pos]? = some r := by
  unfold currentRow at hr
  rw [hb] at hr
  simpa using hr

theorem blockPot_get (b : Block) (i : Nat) (h : i < b.length) :
    blockPot (b.drop i) = rowPot b[i] + blockPot (b.drop (i+1)) := by
  conv_lhs => rw [← List.getElem_cons_drop b i h]
  exact blockPot_cons _ _

theorem blockPot_drop_currentRow (b : Block) (i : Nat) (r : Row)
    (hr : b[i]? = some r) :
    blockPot (b.drop i) = rowPot r + blockPot (b.drop (i+1)) := by
  rcases List.getElem?_eq_some_iff.mp hr with ⟨hlen, he⟩
  rw [blockPot_get b i hlen, he]

theorem goodRow_of_getElem (b : Block) (i : Nat) (r : Row)
    (hgb : goodBlock b = true) (hr : b[i]? = some r) : goodRow r = true := by
  rcases List.getElem?_eq_some_iff.mp hr with ⟨hlen, he⟩
  rw [← he]
  exact (List.all_eq_true.mp hgb) _ (List.getElem_mem hlen)

/-- Bookkeeping of the row-advance loop of `getSome` over a good snapshot:
the early returns behave as in `fetchIfEmpty_pot`, and the continuation
holds a live (`_hasMore`) row with the potential and invariant preserved. -/
theorem ensureRow_pot (nd : PlanNode) :
    ∀ (fuel : Nat) (s : BState) (res : GetRes ⊕ BState),
    InvG s → ensureRow nd fuel s = .ok res →
    (∃ s1, res = .inl ((.waiting, none), s1) ∧ InvG s1 ∧
      statePot s1 = statePot s ∧ s1.done = s.done) ∨
    (∃ s1, res = .inl ((.done, none), s1) ∧ statePot s = 0 ∧ statePot s1 = 0) ∨
    (∃ s1, res = .inr s1 ∧ InvG s1 ∧ statePot s1 = statePot s ∧
      s1.done = s.done ∧ s1.hasMore = true ∧ s1.buffer ≠ []) := by
  intro fuel
  induction fuel with
  | zero => intro s res hI h; exact absurd h (by simp [ensureRow])
  | succ fuel ih =>
    intro s res hI h
    unfold ensureRow at h
    cases hf : fetchIfEmpty nd s with
    | error e => rw [hf] at h; exact absurd h (by simp)
    | ok r0 =>
      rw [hf] at h
      rcases fetchIfEmpty_pot nd s r0 hI hf with
        ⟨s1, rfl, hI1, hp1, hd1⟩ | ⟨s1, rfl, hp0, hp1z⟩ | ⟨rfl, hbne⟩ |
        ⟨s1, rfl, hI1, hp1, hd1, hm1, hbne⟩
      · simp only [Except.ok.injEq] at h
        exact Or.inl ⟨s1, h.symm, hI1, hp1, hd1⟩
      · simp only [Except.ok.injEq] at h
        exact Or.inr (Or.inl ⟨s1, h.symm, hp0, hp1z⟩)
      · simp only at h
        by_cases hm : s.hasMore
        · rw [if_pos hm] at h
          simp only [Except.ok.injEq] at h
          exact Or.inr (Or.inr ⟨s, h.symm, hI, rfl, rfl, hm, hbne⟩)
        · rw [if_neg hm] at h
          have hcur : cursorRest s.segsLeft s.itr = [] :=
            hI.hmCur (by simpa using hm)
          rcases hI.core.buf with hbe | ⟨b, hb, hgb, hplt⟩
          · exact absurd hbe hbne
          · rw [hb] at h
            simp only at h
            by_cases hge : s.pos + 1 ≥ b.length
            · rw [if_pos hge] at h
              have hpot' : statePot { s with
                  hasMore := true, buffer := [], pos := 0 } = statePot s := by
                unfold statePot
                rw [restPot_nil _ rfl, restPot_cons s b hb,
                  List.drop_eq_nil_of_le (by omega)]
                simp [blockPot]
              have hI' : InvG { s with hasMore := true, buffer := [], pos := 0 } := by
                refine ⟨⟨hI.core.up, ?_, Or.inl rfl, ?_, hI.core.curGood, ?_⟩, ?_, ?_⟩
                · intro hus
                  exact hI.core.usDone hus
                · intro _; exact hcur
                · intro hd
                  rw [hpot']
                  exact hI.core.potDone hd
                · intro hc; cases hc
                · intro _; rfl
              rcases ih _ _ hI' h with
                ⟨s3, rfl, hI3, hp3, hd3⟩ | ⟨s3, rfl, hp0, hp1z⟩ |
                ⟨s3, rfl, hI3, hp3, hd3, hm3, hb3⟩
              · exact Or.inl ⟨s3, rfl, hI3, hp3.trans hpot', hd3⟩
              · exact Or.inr (Or.inl ⟨s3, rfl, by rw [← hpot']; exact hp0, hp1z⟩)
              · exact Or.inr (Or.inr ⟨s3, rfl, hI3, hp3.trans hpot', hd3, hm3, hb3⟩)
            · rw [if_neg hge] at h
              split at h
              · exact absurd h (by simp)
              · next s2 heq =>
                have hfr := reset_frame nd _ s2 heq
                have hb2 : s2.buffer = [b] := hfr.2.1.trans rfl
                have hp2 : s2.pos = s.pos + 1 := hfr.2.2.1.trans rfl
                have hup2 : s2.upstream = s.upstream := hfr.2.2.2.1.trans rfl
                have hus2 : s2.upstreamState = s.upstreamState :=
                  hfr.2.2.2.2.2.2.1.trans rfl
                have hhm2 : s2.hasMore = true := hfr.2.2.2.2.2.1.trans rfl
                have hd2 : s2.done = s.done := hfr.1.trans rfl
                obtain ⟨r, hrow, hsegs, hitr⟩ := reset_cursor nd _ s2 heq
                have hidx : b[s.pos + 1]? = some r :=
                  currentRow_some _ b r rfl hrow
                have hgr : goodRow r = true := goodRow_of_getElem b _ r hgb hidx
                have hcur2 : cursorRest s2.segsLeft s2.itr = r.segs.flatten := by
                  rw [hsegs, hitr, cursorRest_none]
                have hc0 : (cursorRest s.segsLeft s.itr).length = 0 := by
                  rw [hcur]
                  rfl
                have hpot2 : statePot s2 = statePot s := by
                  unfold statePot
                  rw [hcur2, rowPot_flatten, restPot_cons s2 b hb2, hp2, hup2,
                    hc0, restPot_cons s b hb,
                    blockPot_drop_currentRow b (s.pos + 1) r hidx]
                  omega
                have hI2 : InvG s2 := by
                  refine ⟨⟨?_, ?_, ?_, ?_, ?_, ?_⟩, ?_, ?_⟩
                  · rw [hup2]
                    exact hI.core.up
                  · intro hus
                    rw [hus2] at hus
                    rw [hup2]
                    exact hI.core.usDone hus
                  · exact Or.inr ⟨b, hb2, hgb, by rw [hp2]; omega⟩
                  · intro hc
                    rw [hb2] at hc
                    cases hc
                  · rw [hcur2]
                    exact goodSeg_flatten _ hgr
                  · intro hd
                    rw [hpot2]
                    rw [hd2] at hd
                    exact hI.core.potDone hd
                  · intro hhm
                    rw [hhm2] at hhm
                    cases hhm
                  · intro hc
                    rw [hb2] at hc
                    cases hc
                rcases ih _ _ hI2 h with
                  ⟨s3, rfl, hI3, hp3, hd3⟩ | ⟨s3, rfl, hp0, hp1z⟩ |
                  ⟨s3, rfl, hI3, hp3, hd3, hm3, hb3⟩
                · exact Or.inl ⟨s3, rfl, hI3, hp3.trans hpot2,
                    hd3.trans hd2⟩
                · exact Or.inr (Or.inl ⟨s3, rfl, by rw [← hpot2]; exact hp0, hp1z⟩)
                · exact Or.inr (Or.inr ⟨s3, rfl, hI3, hp3.trans hpot2,
                    hd3.trans hd2, hm3, hb3⟩)
      · simp only at h
        rw [if_pos hm1] at h
        simp only [Except.ok.injEq] at h
        exact Or.inr (Or.inr ⟨s1, h.symm, hI1, hp1, hd1, hm1, hbne⟩)

theorem getHasMoreState_keep (x : BState) (st : ExecState) (y : BState)
    (hg : getHasMoreState x = (st, y)) (hbne : x.buffer ≠ []) :
    y = x ∧ (st = .done → x.done = true) ∧ (st = .done ∨ st = .hasMore) := by
  unfold getHasMoreState at hg
  by_cases hd : x.done
  · rw [if_pos hd] at hg
    simp only [Prod.mk.injEq] at hg
    exact ⟨hg.2.symm, fun _ => hd, Or.inl hg.1.symm⟩
  · rw [if_neg hd] at hg
    rw [if_neg (fun hc => hbne (by simpa using hc.1))] at hg
    simp only [Prod.mk.injEq] at hg
    refine ⟨hg.2.symm, ?_, Or.inr hg.1.symm⟩
    intro hstd
    rw [← hg.1] at hstd
    cases hstd

/-- Replacing the read cursor by a shorter one (and setting `_hasMore` and the
statistic) keeps the `getSome`-run invariant and decreases the potential by
exactly the dropped cursor length. -/
theorem InvG_set_cursor (s1 : BState) (segs2 : List Segment)
    (itr2 : Option (List Doc)) (hm : Bool) (sc : Nat) (hI1 : InvG s1)
    (hbne : s1.buffer ≠ [])
    (hgood2 : goodSeg (cursorRest segs2 itr2) = true)
    (hmc : hm = false → cursorRest segs2 itr2 = [])
    (hple : (cursorRest segs2 itr2).length ≤ (cursorRest s1.segsLeft s1.itr).length) :
    InvG { s1 with segsLeft := segs2, itr := itr2, hasMore := hm, scanned := sc } ∧
    statePot { s1 with segsLeft := segs2, itr := itr2, hasMore := hm, scanned := sc } +
      ((cursorRest s1.segsLeft s1.itr).length - (cursorRest segs2 itr2).length) =
      statePot s1 := by
  have hS2 : statePot { s1 with
      segsLeft := segs2, itr := itr2, hasMore := hm, scanned := sc } =
      (cursorRest segs2 itr2).length + restPot s1 + upPot s1.upstream := rfl
  have hS1 : statePot s1 =
      (cursorRest s1.segsLeft s1.itr).length + restPot s1 + upPot s1.upstream := rfl
  refine ⟨⟨⟨hI1.core.up, hI1.core.usDone, hI1.core.buf, ?_, hgood2, ?_⟩, ?_, ?_⟩, ?_⟩
  · intro hc
    exact absurd hc hbne
  · intro hd
    have h0 := hI1.core.potDone hd
    rw [hS2]
    rw [hS1] at h0
    omega
  · intro hf
    exact hmc hf
  · intro hc
    exact absurd hc hbne
  · rw [hS2, hS1]
    omega

/-- Over a good snapshot, one completed `getSome` loop iteration chain hands
back exactly `batch-size` potential: the potential of the entry state splits
into the produced batch and the potential of the exit state; a `DONE` exit
state has no potential left, and a non-`DONE` exit keeps the invariant. -/
theorem getSomeLoop_pot (nd : PlanNode) (atMost : Nat) :
    ∀ (fuel : Nat) (s : BState) (st : ExecState) (out : Option (List Doc))
    (s3 : BState),
    InvG s → getSomeLoop nd scoredStrategy atMost fuel s = .ok ((st, out), s3) →
    statePot s = batchRows out + statePot s3 ∧
    (st = .done → statePot s3 = 0) ∧ (st ≠ .done → InvG s3) := by
  intro fuel
  induction fuel with
  | zero => intro s st out s3 hI h; exact absurd h (by simp [getSomeLoop])
  | succ fuel ih =>
    intro s st out s3 hI h
    unfold getSomeLoop at h
    cases he : ensureRow nd (fuel+1) s with
    | error e => rw [he] at h; exact absurd h (by simp)
    | ok r0 =>
      rw [he] at h
      rcases ensureRow_pot nd (fuel+1) s r0 hI he with
        ⟨s1, rfl, hI1, hp1, hd1⟩ | ⟨s1, rfl, hp0, hp1z⟩ |
        ⟨s1, rfl, hI1, hp1, hd1, hm1, hbne⟩
      · simp only [Except.ok.injEq, Prod.mk.injEq] at h
        obtain ⟨⟨hst, hout⟩, hs3⟩ := h
        subst hst hout hs3
        refine ⟨by simp [batchRows, hp1], ?_, fun _ => hI1⟩
        intro hc
        exact absurd hc (by decide)
      · simp only [Except.ok.injEq, Prod.mk.injEq] at h
        obtain ⟨⟨hst, hout⟩, hs3⟩ := h
        subst hst hout hs3
        refine ⟨by rw [hp0, hp1z]; rfl, fun _ => hp1z, ?_⟩
        intro hc
        exact absurd rfl hc
      · rcases hn : scoredStrategy.nextStep s1.segsLeft s1.itr atMost with
          ⟨segs2, itr2, l2, out0, hm⟩
        simp only [hn] at h
        have hgood := scoredNext_good s1.segsLeft s1.itr atMost hI1.core.curGood
        have hsn : scoredNext s1.segsLeft s1.itr atMost =
            (segs2, itr2, l2, out0, hm) := hn
        rw [hsn] at hgood
        have hout' : out0 = (cursorRest s1.segsLeft s1.itr).take
            (min atMost (cursorRest s1.segsLeft s1.itr).length) := hgood.2.1
        have hhm' : hm =
            (atMost - min atMost (cursorRest s1.segsLeft s1.itr).length == 0) :=
          hgood.2.2.1
        have hcur3 : cursorRest segs2 itr2 = (cursorRest s1.segsLeft s1.itr).drop
            (min atMost (cursorRest s1.segsLeft s1.itr).length) := hgood.2.2.2
        have hgood2 : goodSeg (cursorRest segs2 itr2) = true := by
          rw [hcur3]
          exact goodSeg_sub _ _ (List.drop_subset _ _) hI1.core.curGood
        have hmc : hm = false → cursorRest segs2 itr2 = [] := by
          intro hf
          rw [hf] at hhm'
          have hne : ¬ (atMost -
              min atMost (cursorRest s1.segsLeft s1.itr).length = 0) := by
            simpa using hhm'.symm
          have hmx : min atMost (cursorRest s1.segsLeft s1.itr).length =
              (cursorRest s1.segsLeft s1.itr).length := by omega
          rw [hcur3, hmx, List.drop_length]
        have hple : (cursorRest segs2 itr2).length ≤
            (cursorRest s1.segsLeft s1.itr).length := by
          rw [hcur3, List.length_drop]
          omega
        have hdiff : (cursorRest s1.segsLeft s1.itr).length -
            (cursorRest segs2 itr2).length = out0.length := by
          rw [hcur3, List.length_drop, hout', List.length_take]
          omega
        by_cases hoe : out0.isEmpty
        · rw [if_pos hoe] at h
          obtain ⟨hIs2, hps2⟩ := InvG_set_cursor s1 segs2 itr2 hm s1.scanned
            hI1 hbne hgood2 hmc hple
          have hoz : out0.length = 0 := by
            have : out0 = [] := by simpa using hoe
            rw [this]
            rfl
          obtain ⟨hpf, hdn, hid⟩ := ih _ st out s3 hIs2 h
          refine ⟨?_, hdn, hid⟩
          omega
        · rw [if_neg hoe] at h
          rcases hg : getHasMoreState { s1 with
              segsLeft := segs2, itr := itr2, hasMore := hm,
              scanned := s1.scanned + out0.length } with ⟨st', s3'⟩
          simp only [hg] at h
          have hkeep := getHasMoreState_keep _ st' s3' hg hbne
          simp only [Except.ok.injEq, Prod.mk.injEq] at h
          obtain ⟨⟨hst, hout⟩, hs3⟩ := h
          obtain ⟨hIX, hpX⟩ := InvG_set_cursor s1 segs2 itr2 hm
            (s1.scanned + out0.length) hI1 hbne hgood2 hmc hple
          have hcomb : statePot { s1 with
              segsLeft := segs2, itr := itr2, hasMore := hm,
              scanned := s1.scanned + out0.length } + out0.length =
              statePot s1 := by omega
          have hps3 : statePot s3 + out0.length = statePot s1 := by
            rw [← hs3, hkeep.1]
            exact hcomb
          have hbr : batchRows out = out0.length := by
            rw [← hout]
            rfl
          refine ⟨by omega, ?_, ?_⟩
          · intro hstd
            have hxd := hkeep.2.1 (by rw [hst]; exact hstd)
            have hsd : s1.done = true := hxd
            have hz := hI1.core.potDone hsd
            omega
          · intro _
            rw [← hs3, hkeep.1]
            exact hIX

/-- Over a good snapshot, driving `getSome(atMost)` to completion outputs in
total exactly the potential of the start state: every remaining match of the
snapshot is produced exactly once. -/
theorem runGet_pot (nd : PlanNode) (atMost : Nat) :
    ∀ (fuel : Nat) (s : BState) (n : Nat) (t : BState), InvG s →
    runGet nd scoredStrategy atMost fuel s = .ok (n, t) → n = statePot s := by
  intro fuel
  induction fuel with
  | zero => intro s n t hI h; exact absurd h (by simp [runGet])
  | succ fuel ih =>
    intro s n t hI h
    unfold runGet at h
    by_cases hd : s.done
    · rw [show getSomeF nd scoredStrategy (fuel+1) atMost s =
          .ok ((.done, none), s) from by unfold getSomeF; rw [if_pos hd]] at h
      simp only [Except.ok.injEq, Prod.mk.injEq] at h
      rw [← h.1, hI.core.potDone hd]
      rfl
    · rw [show getSomeF nd scoredStrategy (fuel+1) atMost s =
          getSomeLoop nd scoredStrategy atMost (fuel+1) s from by
        unfold getSomeF; rw [if_neg hd]] at h
      cases hglr : getSomeLoop nd scoredStrategy atMost (fuel+1) s with
      | error e => rw [hglr] at h; exact absurd h (by simp)
      | ok r =>
        rcases r with ⟨⟨st, out⟩, s3⟩
        rw [hglr] at h
        obtain ⟨hpf, hdz, hInv⟩ := getSomeLoop_pot nd atMost (fuel+1) s st out s3 hI hglr
        cases st with
        | done =>
          simp only [Except.ok.injEq, Prod.mk.injEq] at h
          have h0 := hdz rfl
          omega
        | waiting =>
          simp only at h
          cases hrg : runGet nd scoredStrategy atMost fuel s3 with
          | error e => rw [hrg] at h; exact absurd h (by simp)
          | ok p =>
            rcases p with ⟨n2, t2⟩
            rw [hrg] at h
            simp only [Except.ok.injEq, Prod.mk.injEq] at h
            have hn2 := ih s3 n2 t2 (hInv (by decide)) hrg
            omega
        | hasMore =>
          simp only at h
          cases hrg : runGet nd scoredStrategy atMost fuel s3 with
          | error e => rw [hrg] at h; exact absurd h (by simp)
          | ok p =>
            rcases p with ⟨n2, t2⟩
            rw [hrg] at h
            simp only [Except.ok.injEq, Prod.mk.injEq] at h
            have hn2 := ih s3 n2 t2 (hInv (by decide)) hrg
            omega

theorem statePot_done_mark (x : BState) :
    statePot { x with done := true } = statePot x := rfl

/-- Full behaviour of `getHasMoreState`: either the state passes through
unchanged, or (drained buffer, upstream `DONE`) the done flag is set. -/
theorem getHasMoreState_pot (x : BState) (st : ExecState) (y : BState)
    (hg : getHasMoreState x = (st, y)) :
    (y = x ∧ (st = .done → x.done = true) ∧ (st = .done ∨ st = .hasMore)) ∨
    (y = { x with done := true } ∧ st = .done ∧ x.buffer = [] ∧
      x.upstreamState = .done ∧ x.done = false) := by
  unfold getHasMoreState at hg
  by_cases hd : x.done
  · rw [if_pos hd] at hg
    simp only [Prod.mk.injEq] at hg
    exact Or.inl ⟨hg.2.symm, fun _ => hd, Or.inl hg.1.symm⟩
  · rw [if_neg hd] at hg
    by_cases hc : x.buffer.isEmpty = true ∧ x.upstreamState = .done
    · rw [if_pos hc] at hg
      simp only [Prod.mk.injEq] at hg
      exact Or.inr ⟨hg.2.symm, hg.1.symm, by simpa using hc.1, hc.2,
        by simpa using hd⟩
    · rw [if_neg hc] at hg
      simp only [Prod.mk.injEq] at hg
      refine Or.inl ⟨hg.2.symm, ?_, Or.inr hg.1.symm⟩
      intro hstd
      rw [← hg.1] at hstd
      cases hstd

/-- Replacing the read cursor by a shorter one (and the in-flight counter and
statistic) keeps the core invariant and decreases the potential by exactly
the dropped cursor length. -/
theorem InvC_set_cursor (s1 : BState) (segs2 : List Segment)
    (itr2 : Option (List Doc)) (infl sc : Nat) (hI1 : InvC s1)
    (hbne : s1.buffer ≠ [])
    (hgood2 : goodSeg (cursorRest segs2 itr2) = true)
    (hple : (cursorRest segs2 itr2).length ≤ (cursorRest s1.segsLeft s1.itr).length) :
    InvC { s1 with segsLeft := segs2, itr := itr2, inflight := infl, scanned := sc } ∧
    statePot { s1 with segsLeft := segs2, itr := itr2, inflight := infl, scanned := sc } +
      ((cursorRest s1.segsLeft s1.itr).length - (cursorRest segs2 itr2).length) =
      statePot s1 := by
  have hS2 : statePot { s1 with
      segsLeft := segs2, itr := itr2, inflight := infl, scanned := sc } =
      (cursorRest segs2 itr2).length + restPot s1 + upPot s1.upstream := rfl
  have hS1 : statePot s1 =
      (cursorRest s1.segsLeft s1.itr).length + restPot s1 + upPot s1.upstream := rfl
  refine ⟨⟨hI1.up, hI1.usDone, hI1.buf, ?_, hgood2, ?_⟩, ?_⟩
  · intro hc
    exact absurd hc hbne
  · intro hd
    have h0 := hI1.potDone hd
    rw [hS2]
    rw [hS1] at h0
    omega
  · rw [hS2, hS1]
    omega

/-- Bookkeeping of the buffer-fill step of `skipSome` over a good snapshot:
mirrors `fetchIfEmpty_pot`, with the `DONE` early return reporting the
in-flight counter and zeroing it. -/
theorem skipFetch_pot (nd : PlanNode) (s : BState) (res : SkipRes ⊕ BState)
    (hI : InvC s) (h : skipFetch nd s = .ok res) :
    (∃ s1, res = .inl ((.waiting, 0), s1) ∧ InvC s1 ∧
      statePot s1 = statePot s ∧ s1.done = s.done ∧ s1.inflight = s.inflight) ∨
    (∃ s1, res = .inl ((.done, s.inflight), s1) ∧ statePot s = 0 ∧
      statePot s1 = 0 ∧ s1.inflight = 0) ∨
    (res = .inr s ∧ s.buffer ≠ []) ∨
    (∃ s1, res = .inr s1 ∧ InvC s1 ∧ statePot s1 = statePot s ∧
      s1.done = s.done ∧ s1.inflight = s.inflight ∧ s1.buffer ≠ []) := by
  unfold skipFetch at h
  by_cases hb : s.buffer.isEmpty
  · have hbe : s.buffer = [] := by simpa using hb
    have hcur : cursorRest s.segsLeft s.itr = [] := hI.bufCur hbe
    have hwf := hI.up
    rw [if_pos hb] at h
    cases hu : s.upstream with
    | nil =>
      rw [getBlockStep_nil s hu] at h
      simp only [Bool.false_eq_true, if_neg, not_false_iff, Except.ok.injEq] at h
      refine Or.inr (Or.inl ⟨_, h.symm, ?_, ?_, rfl⟩)
      · unfold statePot
        rw [hcur, restPot_nil s hbe, hu]
        simp [upPot]
      · exact statePot_zero _ hbe hcur (by show upPot s.upstream = 0; rw [hu]; rfl)
    | cons r0 rest =>
      cases r0 with
      | waiting =>
        rw [getBlockStep_waiting s rest hu] at h
        simp only [Except.ok.injEq] at h
        have hpot : statePot { s with upstream := rest } = statePot s := by
          unfold statePot
          rw [hu, upPot_cons]
          have h1 : restPot { s with upstream := rest } = restPot s := by
            unfold restPot
            rfl
          rw [h1]
          simp [respPot]
        refine Or.inl ⟨_, h.symm, ⟨?_, ?_, ?_, ?_, ?_, ?_⟩, hpot, rfl, rfl⟩
        · rw [hu] at hwf
          exact hwf
        · intro hus
          exact absurd (hI.usDone hus) (by rw [hu]; simp)
        · exact Or.inl hbe
        · intro _; exact hcur
        · exact hI.curGood
        · intro hd
          rw [hpot]
          exact hI.potDone hd
      | yield last b =>
        rw [hu, wfUp] at hwf
        simp only [Bool.and_eq_true, Bool.not_eq_true'] at hwf
        cases b with
        | nil => simp at hwf
        | cons row0 bt =>
        have hgb : goodBlock (row0 :: bt) = true := hwf.1.2
        have hgr : goodRow row0 = true := by
          rw [goodBlock, List.all_cons, Bool.and_eq_true] at hgb
          exact hgb.1
        have hbpot : blockPot (row0 :: bt) = rowPot row0 + blockPot bt :=
          blockPot_cons row0 bt
        have hpotS : statePot s = blockPot (row0 :: bt) + upPot rest := by
          unfold statePot
          rw [hcur, restPot_nil s hbe, hu, upPot_cons]
          simp [respPot]
        rw [getBlockStep_yield s last (row0 :: bt) rest hu] at h
        have hrest : (if last then rest.isEmpty else wfUp rest) = true := hwf.2
        cases last with
        | false =>
          simp only [Bool.false_eq_true, if_false, eq_self_iff_true, if_true] at h
          split at h
          · exact absurd h (by simp)
          · next s2 heq =>
            simp only [Except.ok.injEq] at h
            have hfr := reset_frame nd _ s2 heq
            have hb2 : s2.buffer = [row0 :: bt] := by
              rw [hfr.2.1]
              show s.buffer ++ [row0 :: bt] = [row0 :: bt]
              rw [hbe]
              exact List.nil_append _
            have hp2 : s2.pos = 0 := hfr.2.2.1.trans rfl
            have hup2 : s2.upstream = rest := hfr.2.2.2.1.trans rfl
            have hus2 : s2.upstreamState = .hasMore := hfr.2.2.2.2.2.2.1.trans rfl
            have hif2 : s2.inflight = s.inflight := hfr.2.2.2.2.1.trans rfl
            have hd2 : s2.done = s.done := hfr.1.trans rfl
            obtain ⟨r, hrow, hsegs, hitr⟩ := reset_cursor nd _ s2 heq
            have hrow2 : r = row0 := by
              rw [currentRow_zero _ row0 bt (by
                show s.buffer ++ [row0 :: bt] = [row0 :: bt]
                rw [hbe]
                exact List.nil_append _) rfl] at hrow
              exact (Option.some.inj hrow).symm
            rw [hrow2] at hsegs
            have hcur2 : cursorRest s2.segsLeft s2.itr = row0.segs.flatten := by
              rw [hsegs, hitr, cursorRest_none]
            have hpot2 : statePot s2 = statePot s := by
              have hL : statePot s2 = rowPot row0 + blockPot bt + upPot rest := by
                unfold statePot
                rw [hcur2, rowPot_flatten, restPot_cons s2 _ hb2, hp2, hup2,
                  List.drop_succ_cons, List.drop_zero]
              rw [hL, hpotS, hbpot]
            refine Or.inr (Or.inr (Or.inr ⟨s2, h.symm, ⟨?_, ?_, ?_, ?_, ?_, ?_⟩,
              hpot2, hd2, hif2, by rw [hb2]; simp⟩))
            · rw [hup2]
              exact hrest
            · intro hus
              rw [hus2] at hus
              cases hus
            · exact Or.inr ⟨row0 :: bt, hb2, hgb, by rw [hp2]; simp⟩
            · intro hc
              rw [hb2] at hc
              cases hc
            · rw [hcur2]
              exact goodSeg_flatten _ hgr
            · intro hd
              rw [hpot2]
              rw [hd2] at hd
              exact hI.potDone hd
        | true =>
          simp only [eq_self_iff_true, if_true] at h hrest
          have hrnil : rest = [] := by simpa using hrest
          split at h
          · exact absurd h (by simp)
          · next s2 heq =>
            simp only [Except.ok.injEq] at h
            have hfr := reset_frame nd _ s2 heq
            have hb2 : s2.buffer = [row0 :: bt] := by
              rw [hfr.2.1]
              show s.buffer ++ [row0 :: bt] = [row0 :: bt]
              rw [hbe]
              exact List.nil_append _
            have hp2 : s2.pos = 0 := hfr.2.2.1.trans rfl
            have hup2 : s2.upstream = rest := hfr.2.2.2.1.trans rfl
            have hus2 : s2.upstreamState = .done := hfr.2.2.2.2.2.2.1.trans rfl
            have hif2 : s2.inflight = s.inflight := hfr.2.2.2.2.1.trans rfl
            have hd2 : s2.done = s.done := hfr.1.trans rfl
            obtain ⟨r, hrow, hsegs, hitr⟩ := reset_cursor nd _ s2 heq
            have hrow2 : r = row0 := by
              rw [currentRow_zero _ row0 bt (by
                show s.buffer ++ [row0 :: bt] = [row0 :: bt]
                rw [hbe]
                exact List.nil_append _) rfl] at hrow
              exact (Option.some.inj hrow).symm
            rw [hrow2] at hsegs
            have hcur2 : cursorRest s2.segsLeft s2.itr = row0.segs.flatten := by
              rw [hsegs, hitr, cursorRest_none]
            have hpot2 : statePot s2 = statePot s := by
              have hL : statePot s2 = rowPot row0 + blockPot bt + upPot rest := by
                unfold statePot
                rw [hcur2, rowPot_flatten, restPot_cons s2 _ hb2, hp2, hup2,
                  List.drop_succ_cons, List.drop_zero]
              rw [hL, hpotS, hbpot]
            refine Or.inr (Or.inr (Or.inr ⟨s2, h.symm, ⟨?_, ?_, ?_, ?_, ?_, ?_⟩,
              hpot2, hd2, hif2, by rw [hb2]; simp⟩))
            · rw [hup2, hrnil]
              rfl
            · intro _
              rw [hup2, hrnil]
            · exact Or.inr ⟨row0 :: bt, hb2, hgb, by rw [hp2]; simp⟩
            · intro hc
              rw [hb2] at hc
              cases hc
            · rw [hcur2]
              exact goodSeg_flatten _ hgr
            · intro hd
              rw [hpot2]
              rw [hd2] at hd
              exact hI.potDone hd
      | exhausted =>
        rw [getBlockStep_exhausted s rest hu] at h
        simp only [Bool.false_eq_true, if_neg, not_false_iff, Except.ok.injEq] at h
        have hrest : rest = [] := by
          rw [hu, wfUp] at hwf
          simpa using hwf
        refine Or.inr (Or.inl ⟨_, h.symm, ?_, ?_, rfl⟩)
        · unfold statePot
          rw [hcur, restPot_nil s hbe, hu, hrest]
          simp [upPot, respPot]
        · exact statePot_zero _ hbe hcur (by show upPot rest = 0; rw [hrest]; rfl)
  · rw [if_neg hb] at h
    simp only [Except.ok.injEq] at h
    exact Or.inr (Or.inr (Or.inl ⟨h.symm, by simpa using hb⟩))

/-- Bookkeeping of one `skipSome` loop iteration (buffer known nonempty):
the skipped count moves potential into the in-flight counter, the input row
is advanced when the budget is unmet, and the epilogue reports and zeroes
the counter. -/
theorem skipBody_pot (nd : PlanNode) (atMost : Nat) (fuel : Nat)
    (ih : ∀ (s : BState) (st : ExecState) (k : Nat) (s3 : BState),
      InvC s → s.inflight ≤ atMost →
      skipSomeLoop nd scoredStrategy atMost fuel s = .ok ((st, k), s3) →
      statePot s + s.inflight = k + statePot s3 + s3.inflight ∧
      s3.inflight ≤ atMost ∧ (st ≠ .done → InvC s3) ∧
      (st = .done → statePot s3 = 0 ∧ s3.inflight = 0))
    (s1 : BState) (st : ExecState) (k : Nat) (s3 : BState)
    (hI1 : InvC s1) (hin1 : s1.inflight ≤ atMost) (hbne : s1.buffer ≠ [])
    (h : skipBody nd scoredStrategy atMost
      (skipSomeLoop nd scoredStrategy atMost fuel) s1 = .ok ((st, k), s3)) :
    statePot s1 + s1.inflight = k + statePot s3 + s3.inflight ∧
    s3.inflight ≤ atMost ∧ (st ≠ .done → InvC s3) ∧
    (st = .done → statePot s3 = 0 ∧ s3.inflight = 0) := by
  rcases hI1.buf with hbe0 | ⟨b, hb, hgb, hplt⟩
  · exact absurd hbe0 hbne
  unfold skipBody at h
  rw [hb] at h
  simp only at h
  rcases hsk : scoredStrategy.skipStep s1.segsLeft s1.itr (atMost - s1.inflight) with
    ⟨segs2, itr2, kk⟩
  simp only [hsk] at h
  have hbs : blockSkip s1.segsLeft s1.itr (atMost - s1.inflight) =
      (segs2, itr2, kk) := hsk
  have hbq := blockSkip_eq s1.segsLeft s1.itr (atMost - s1.inflight)
  rw [hbs] at hbq
  have hkk : kk = min (atMost - s1.inflight)
      (cursorRest s1.segsLeft s1.itr).length := hbq.1
  have hcur3 : cursorRest segs2 itr2 = (cursorRest s1.segsLeft s1.itr).drop
      (min (atMost - s1.inflight) (cursorRest s1.segsLeft s1.itr).length) := hbq.2
  have hgood2 : goodSeg (cursorRest segs2 itr2) = true := by
    rw [hcur3]
    exact goodSeg_sub _ _ (List.drop_subset _ _) hI1.curGood
  have hple : (cursorRest segs2 itr2).length ≤
      (cursorRest s1.segsLeft s1.itr).length := by
    rw [hcur3, List.length_drop]
    omega
  have hdiff : (cursorRest s1.segsLeft s1.itr).length -
      (cursorRest segs2 itr2).length = kk := by
    rw [hcur3, List.length_drop, hkk]
    omega
  have hS1 : statePot s1 = (cursorRest s1.segsLeft s1.itr).length +
      restPot s1 + upPot s1.upstream := rfl
  by_cases h2 : s1.inflight + kk < atMost
  · rw [if_pos h2] at h
    have hc2e : cursorRest segs2 itr2 = [] := by
      rw [hcur3]
      have hmx : min (atMost - s1.inflight) (cursorRest s1.segsLeft s1.itr).length =
          (cursorRest s1.segsLeft s1.itr).length := by omega
      rw [hmx, List.drop_length]
    have hc2l : (cursorRest segs2 itr2).length = 0 := by
      rw [hc2e]
      rfl
    by_cases hge : s1.pos + 1 ≥ b.length
    · rw [if_pos hge] at h
      have hrs1 : restPot s1 = 0 := by
        rw [restPot_cons s1 b hb, List.drop_eq_nil_of_le (by omega)]
        rfl
      have hPT : statePot { s1 with
          segsLeft := segs2, itr := itr2,
          inflight := s1.inflight + kk, buffer := [], pos := 0 } =
          (cursorRest segs2 itr2).length + 0 + upPot s1.upstream := rfl
      have hIT : InvC { s1 with
          segsLeft := segs2, itr := itr2,
          inflight := s1.inflight + kk, buffer := [], pos := 0 } := by
        refine ⟨hI1.up, hI1.usDone, Or.inl rfl, ?_, hgood2, ?_⟩
        · intro _
          exact hc2e
        · intro hd
          have h0 := hI1.potDone hd
          rw [hPT]
          rw [hS1] at h0
          omega
      obtain ⟨hf1, hf2, hf3, hf4⟩ := ih _ st k s3 hIT
        (show s1.inflight + kk ≤ atMost by omega) h
      have hTi : ({ s1 with
          segsLeft := segs2, itr := itr2,
          inflight := s1.inflight + kk, buffer := [], pos := 0 } : BState).inflight =
          s1.inflight + kk := rfl
      exact ⟨by omega, hf2, hf3, hf4⟩
    · rw [if_neg hge] at h
      split at h
      · exact absurd h (by simp)
      · next s4 heq =>
        have hfr := reset_frame nd _ s4 heq
        have hb4 : s4.buffer = [b] := hfr.2.1.trans rfl
        have hp4 : s4.pos = s1.pos + 1 := hfr.2.2.1.trans rfl
        have hup4 : s4.upstream = s1.upstream := hfr.2.2.2.1.trans rfl
        have hus4 : s4.upstreamState = s1.upstreamState :=
          hfr.2.2.2.2.2.2.1.trans rfl
        have hi4 : s4.inflight = s1.inflight + kk := hfr.2.2.2.2.1.trans rfl
        have hd4 : s4.done = s1.done := hfr.1.trans rfl
        obtain ⟨r, hrow, hsegs, hitr⟩ := reset_cursor nd _ s4 heq
        have hidx : b[s1.pos + 1]? = some r := currentRow_some _ b r rfl hrow
        have hgr : goodRow r = true := goodRow_of_getElem b _ r hgb hidx
        have hcur4 : cursorRest s4.segsLeft s4.itr = r.segs.flatten := by
          rw [hsegs, hitr, cursorRest_none]
        have hrs : restPot s1 = blockPot (b.drop (s1.pos + 1)) :=
          restPot_cons s1 b hb
        have hbg := blockPot_drop_currentRow b (s1.pos + 1) r hidx
        have hL : statePot s4 = rowPot r + blockPot (b.drop (s1.pos + 1 + 1)) +
            upPot s1.upstream := by
          unfold statePot
          rw [hcur4, rowPot_flatten, restPot_cons s4 b hb4, hp4, hup4]
        have hpot4 : statePot s4 + kk = statePot s1 := by
          omega
        have hI4 : InvC s4 := by
          refine ⟨?_, ?_, ?_, ?_, ?_, ?_⟩
          · rw [hup4]
            exact hI1.up
          · intro hus
            rw [hus4] at hus
            rw [hup4]
            exact hI1.usDone hus
          · exact Or.inr ⟨b, hb4, hgb, by rw [hp4]; omega⟩
          · intro hc
            rw [hb4] at hc
            cases hc
          · rw [hcur4]
            exact goodSeg_flatten _ hgr
          · intro hd
            rw [hd4] at hd
            have h0 := hI1.potDone hd
            omega
        obtain ⟨hf1, hf2, hf3, hf4⟩ := ih _ st k s3 hI4
          (show s4.inflight ≤ atMost by omega) h
        exact ⟨by omega, hf2, hf3, hf4⟩
  · rw [if_neg h2] at h
    rw [← hb] at h
    simp only [finishSkip] at h
    rcases hg : getHasMoreState { s1 with
        segsLeft := segs2, itr := itr2,
        inflight := 0, scanned := s1.scanned + (s1.inflight + kk) } with ⟨st', sy⟩
    simp only [hg] at h
    simp only [Except.ok.injEq, Prod.mk.injEq] at h
    obtain ⟨⟨hst, hk⟩, hs3⟩ := h
    obtain ⟨hIY, hpY⟩ := InvC_set_cursor s1 segs2 itr2 0
      (s1.scanned + (s1.inflight + kk)) hI1 hbne hgood2 hple
    have hcomb : statePot { s1 with
        segsLeft := segs2, itr := itr2,
        inflight := 0, scanned := s1.scanned + (s1.inflight + kk) } + kk =
        statePot s1 := by omega
    rcases getHasMoreState_pot _ st' sy hg with
      ⟨hy, hyd, hyst⟩ | ⟨hy, hyst, hybuf, hyus, hyd⟩
    · have h3p : statePot s3 + kk = statePot s1 := by
        rw [← hs3, hy]
        exact hcomb
      have h3i : s3.inflight = 0 := by
        rw [← hs3, hy]
      refine ⟨by omega, by omega, ?_, ?_⟩
      · intro _
        rw [← hs3, hy]
        exact hIY
      · intro hstd
        have hsd : s1.done = true := hyd (by rw [hst]; exact hstd)
        have h0 := hI1.potDone hsd
        exact ⟨by omega, h3i⟩
    · exact absurd hybuf hbne

/-- Over a good snapshot, one completed `skipSome` call chain balances the
books: entry potential plus entry in-flight equals reported count plus exit
potential plus exit in-flight; the exit counter never exceeds `atMost`; and a
`DONE` report leaves no potential and a zero counter. -/
theorem skipSomeLoop_pot (nd : PlanNode) (atMost : Nat) :
    ∀ (fuel : Nat) (s : BState) (st : ExecState) (k : Nat) (s3 : BState),
    InvC s → s.inflight ≤ atMost →
    skipSomeLoop nd scoredStrategy atMost fuel s = .ok ((st, k), s3) →
    statePot s + s.inflight = k + statePot s3 + s3.inflight ∧
    s3.inflight ≤ atMost ∧ (st ≠ .done → InvC s3) ∧
    (st = .done → statePot s3 = 0 ∧ s3.inflight = 0) := by
  intro fuel
  induction fuel with
  | zero => intro s st k s3 hI hin h; exact absurd h (by simp [skipSomeLoop])
  | succ fuel ih =>
    intro s st k s3 hI hin h
    unfold skipSomeLoop at h
    by_cases hlt : s.inflight < atMost
    · rw [if_pos hlt] at h
      cases hf : skipFetch nd s with
      | error e => rw [hf] at h; exact absurd h (by simp)
      | ok r0 =>
        rw [hf] at h
        rcases skipFetch_pot nd s r0 hI hf with
          ⟨s1, rfl, hI1, hp1, hd1, hi1⟩ | ⟨s1, rfl, hp0, hp1z, hi1z⟩ |
          ⟨rfl, hbne⟩ | ⟨s1, rfl, hI1, hp1, hd1, hi1, hbne⟩
        · simp only [Except.ok.injEq, Prod.mk.injEq] at h
          obtain ⟨⟨hst, hk⟩, hs3⟩ := h
          subst hst hk hs3
          refine ⟨by omega, by omega, fun _ => hI1, ?_⟩
          intro hc
          exact absurd hc (by decide)
        · simp only [Except.ok.injEq, Prod.mk.injEq] at h
          obtain ⟨⟨hst, hk⟩, hs3⟩ := h
          subst hst hk hs3
          exact ⟨by omega, by omega, fun hc => absurd rfl hc,
            fun _ => ⟨hp1z, hi1z⟩⟩
        · simp only at h
          exact skipBody_pot nd atMost fuel ih s st k s3 hI hin hbne h
        · simp only at h
          obtain ⟨hf1, hf2, hf3, hf4⟩ :=
            skipBody_pot nd atMost fuel ih s1 st k s3 hI1 (by omega) hbne h
          exact ⟨by omega, hf2, hf3, hf4⟩
    · rw [if_neg hlt] at h
      simp only [finishSkip] at h
      rcases hg : getHasMoreState { s with
          scanned := s.scanned + s.inflight, inflight := 0 } with ⟨st', sy⟩
      simp only [hg] at h
      simp only [Except.ok.injEq, Prod.mk.injEq] at h
      obtain ⟨⟨hst, hk⟩, hs3⟩ := h
      have hY0 : statePot { s with
          scanned := s.scanned + s.inflight, inflight := 0 } = statePot s := rfl
      have hIY0 : InvC { s with
          scanned := s.scanned + s.inflight, inflight := 0 } := by
        refine ⟨hI.up, hI.usDone, hI.buf, hI.bufCur, hI.curGood, ?_⟩
        intro hd
        rw [hY0]
        exact hI.potDone hd
      rcases getHasMoreState_pot _ st' sy hg with
        ⟨hy, hyd, hyst⟩ | ⟨hy, hyst, hybuf, hyus, hyd⟩
      · have h3p : statePot s3 = statePot s := by
          rw [← hs3, hy]
          exact hY0
        have h3i : s3.inflight = 0 := by
          rw [← hs3, hy]
        refine ⟨by omega, by omega, ?_, ?_⟩
        · intro _
          rw [← hs3, hy]
          exact hIY0
        · intro hstd
          have hsd : s.done = true := hyd (by rw [hst]; exact hstd)
          have h0 := hI.potDone hsd
          exact ⟨by omega, h3i⟩
      · have hsb : s.buffer = [] := hybuf
        have hsus : s.upstreamState = .done := hyus
        have hup0 : s.upstream = [] := hI.usDone hsus
        have hcur0 : cursorRest s.segsLeft s.itr = [] := hI.bufCur hsb
        have hpz : statePot s = 0 :=
          statePot_zero s hsb hcur0 (by rw [hup0]; rfl)
        have h3p : statePot s3 = 0 := by
          rw [← hs3, hy, statePot_done_mark]
          rw [hY0]
          exact hpz
        have h3i : s3.inflight = 0 := by
          rw [← hs3, hy]
        refine ⟨by omega, by omega, ?_, fun _ => ⟨h3p, h3i⟩⟩
        intro hne
        exact absurd (show st = .done by rw [← hst]; exact hyst) hne

/-- Over a good snapshot, driving `skipSome(atMost)` to completion reports in
total exactly the potential of the start state plus any in-flight count
carried in: every remaining match is counted exactly once. -/
theorem runSkip_pot (nd : PlanNode) (atMost : Nat) :
    ∀ (fuel : Nat) (s : BState) (n : Nat) (t : BState), InvC s →
    s.inflight ≤ atMost →
    runSkip nd scoredStrategy atMost fuel s = .ok (n, t) →
    n = statePot s + s.inflight := by
  intro fuel
  induction fuel with
  | zero => intro s n t hI hin h; exact absurd h (by simp [runSkip])
  | succ fuel ih =>
    intro s n t hI hin h
    unfold runSkip at h
    by_cases hd : s.done
    · rw [show skipSomeF nd scoredStrategy (fuel+1) atMost s =
          .ok ((.done, s.inflight), { s with
            inflight := 0, scanned := s.scanned + s.inflight }) from by
        unfold skipSomeF; rw [if_pos hd]] at h
      simp only [Except.ok.injEq, Prod.mk.injEq] at h
      have h0 := hI.potDone hd
      omega
    · rw [show skipSomeF nd scoredStrategy (fuel+1) atMost s =
          skipSomeLoop nd scoredStrategy atMost (fuel+1) s from by
        unfold skipSomeF; rw [if_neg hd]] at h
      cases hlr : skipSomeLoop nd scoredStrategy atMost (fuel+1) s with
      | error e => rw [hlr] at h; exact absurd h (by simp)
      | ok r =>
        rcases r with ⟨⟨st, kk⟩, s3⟩
        rw [hlr] at h
        obtain ⟨hf1, hf2, hf3, hf4⟩ :=
          skipSomeLoop_pot nd atMost (fuel+1) s st kk s3 hI hin hlr
        cases st with
        | done =>
          simp only [Except.ok.injEq, Prod.mk.injEq] at h
          obtain ⟨hz1, hz2⟩ := hf4 rfl
          omega
        | waiting =>
          simp only at h
          cases hrg : runSkip nd scoredStrategy atMost fuel s3 with
          | error e => rw [hrg] at h; exact absurd h (by simp)
          | ok p =>
            rcases p with ⟨n2, t2⟩
            rw [hrg] at h
            simp only [Except.ok.injEq, Prod.mk.injEq] at h
            have hn2 := ih s3 n2 t2 (hf3 (by decide)) hf2 hrg
            omega
        | hasMore =>
          simp only at h
          cases hrg : runSkip nd scoredStrategy atMost fuel s3 with
          | error e => rw [hrg] at h; exact absurd h (by simp)
          | ok p =>
            rcases p with ⟨n2, t2⟩
            rw [hrg] at h
            simp only [Except.ok.injEq, Prod.mk.injEq] at h
            have hn2 := ih s3 n2 t2 (hf3 (by decide)) hf2 hrg
            omega

/-- A freshly constructed scored block over a well-formed good snapshot
satisfies the `getSome`-run invariant. -/
theorem scoredInit_InvG (u : List UpResp) (hu : wfUp u = true) :
    InvG (scoredInit u) := by
  refine ⟨⟨hu, ?_, Or.inl rfl, ?_, ?_, ?_⟩, ?_, ?_⟩
  · intro hus
    simp [scoredInit, unorderedInit, initialState] at hus
  · intro _
    rfl
  · rfl
  · intro hd
    simp [scoredInit, unorderedInit, initialState] at hd
  · intro hf
    simp [scoredInit, unorderedInit, initialState] at hf
  · intro _
    rfl

/-- C3 counterexample row: the filter and scorers compile, the single index
match passes the primary-key read, but its storage join fails (a
deterministic snapshot in which the document is missing from the storage
engine). -/
def rowBadC3 : Row := ⟨true, true, [[dBad]]⟩

/-- C3 counterexample: over the snapshot holding exactly the match
`rowBadC3`, driving `getSome(1)` to `DONE` outputs 0 rows in total — the
failed join is silently skipped — while the equivalent `skipSome(1)` run
reports 1: `skip` counts raw iterator matches and never performs the storage
join, so the two totals differ and the claimed equality is false for
snapshots with failing joins. -/
theorem C3_counterexample :
    (runGet ndFF scoredStrategy 1 9
      (scoredInit [.yield false [rowBadC3], .exhausted])).toOption.map Prod.fst =
        some 0 ∧
    (runSkip ndFF scoredStrategy 1 9
      (scoredInit [.yield false [rowBadC3], .exhausted])).toOption.map Prod.fst =
        some 1 := ⟨rfl, rfl⟩

/-- **C3** (amended): over a deterministic snapshot in which every index
match reads back successfully (primary-key lookup and storage join both
succeed — `wfUp`), for every `atMost > 0`, driving `getSome(atMost)` to
`DONE` and driving `skipSome(atMost)` to `DONE` over the same snapshot
produce the same total count — both equal to the snapshot's total number of
matches. (Without the all-joins-succeed hypothesis the equality fails:
`skip` counts matches without joining, `next` outputs only joined documents
— see the counterexample.) -/
theorem C3_get_skip_totals (nd : PlanNode) (atMost : Nat) (hpos : 0 < atMost)
    (u : List UpResp) (hu : wfUp u = true) (f1 f2 n1 n2 : Nat) (t1 t2 : BState)
    (h1 : runGet nd scoredStrategy atMost f1 (scoredInit u) = .ok (n1, t1))
    (h2 : runSkip nd scoredStrategy atMost f2 (scoredInit u) = .ok (n2, t2)) :
    n1 = n2 ∧ n1 = upPot u := by
  have hI := scoredInit_InvG u hu
  have e1 := runGet_pot nd atMost f1 (scoredInit u) n1 t1 hI h1
  have e2 := runSkip_pot nd atMost f2 (scoredInit u) n2 t2 hI.core
    (Nat.zero_le atMost) h2
  have hsp : statePot (scoredInit u) = upPot u := by
    show 0 + 0 + upPot u = upPot u
    omega
  have hi0 : (scoredInit u).inflight = 0 := rfl
  omega

/-- Snapshot of the C3 witness: two input rows (one match, then two matches
across two segments), with two upstream `WAITING` suspensions. -/
def uC3 : List UpResp :=
  [.waiting, .yield false [⟨true, true, [[dOk]]⟩, ⟨true, true, [[dOk2], [dOk]]⟩],
   .waiting, .exhausted]

/-- Final state of both completed C3 witness runs. -/
def tC3 : BState :=
  ⟨[], [], 0, true, true, 0, .done, [], none, false, false, 3⟩

theorem C3_witness :
    0 < 2 ∧ wfUp uC3 = true ∧ (3 = 3 ∧ 3 = upPot uC3) :=
  ⟨by decide, by decide,
   C3_get_skip_totals ndFF 2 (by decide) uC3 (by decide) 12 12 3 3 tC3 tC3 rfl rfl⟩
